import Mathlib

/-!
Verification of the CNTK `ReaderLib` Indexer
(`Source/Readers/ReaderLib/Indexer.cpp`).

The development shallowly embeds the indexer: the input file is a list of
byte values (`Nat`, one per byte), buffered reads are modelled explicitly
(`refillBuffer` reads blocks of `bufferSize` bytes, exactly like `fread`
over a regular file), and each C++ loop becomes a fuel-indexed recursive
function.  Fatal `RuntimeError`s become explicit error results that carry
the state at the moment the error is raised.  The `uint32_t` quantities of
the source (`numberOfSamples` counters, chunk ids, in-chunk sequence
indices) are modelled as `Nat` reduced modulo `2^32` at exactly the points
where the C++ code increments or casts them; `size_t` byte offsets are
modelled as plain `Nat`.

The companion header `Indexer.h` is not part of the sources; the few
members it declares (`GetFileOffset`, the `Index` constructor, `IsEmpty`,
`CHUNKID_MAX`) are modelled from the specification and marked as such.
-/

namespace CNTKIndexer

/-- `2^32`, the number of values of `uint32_t`. -/
def UINT32_LIMIT : Nat := 4294967296

/-- `2^64`: `size_t` arithmetic (the key accumulator of
`TryGetNumericSequenceId`) wraps modulo this. -/
def SIZET_LIMIT : Nat := 18446744073709551616

/-- Modelled from the spec: the maximum representable chunk-id value.
`ChunkIdType` is a 32-bit unsigned id ("`id`: sequential integer starting
at 0"), so `CHUNKID_MAX` is the largest `uint32_t`. -/
def CHUNKID_MAX : Nat := UINT32_LIMIT - 1

/-- One sequence, as stored in the index (`SequenceDescriptor` of the
source; the key, the sample count, the byte size set by `SetSize` and the
chunk-relative offset set by `SetOffsetInChunk`). -/
structure SequenceDescriptor where
  key : Nat
  numberOfSamples : Nat
  byteSize : Nat := 0
  offsetInChunk : Nat := 0
deriving DecidableEq, Repr

/-- One chunk of the index (`ChunkDescriptor` of the source): running
totals over its sequences plus the ordered sequence list, and the optional
per-sequence first-sample offsets (`m_sequenceOffsetInChunkInSamples`).
Default values are those of C++ value initialization (`push_back({})`). -/
structure ChunkDescriptor where
  id : Nat := 0
  offset : Nat := 0
  byteSize : Nat := 0
  numberOfSequences : Nat := 0
  numberOfSamples : Nat := 0
  sequences : List SequenceDescriptor := []
  sequenceOffsetInChunkInSamples : List Nat := []
deriving DecidableEq, Repr

/-- The index artifact: the ordered chunk list, the secondary-stream key
map and the configuration (`m_maxChunkSize`, `m_primary`,
`m_trackFirstSamples`). -/
structure Index where
  chunks : List ChunkDescriptor
  keyToSequenceInChunk : List (Nat × Nat × Nat)
  maxChunkSize : Nat
  primary : Bool
  trackFirstSamples : Bool
deriving DecidableEq, Repr

/-- Modelled from the spec: `m_keyToSequenceInChunk` is declared in the
missing header as an ordered map from key to `(chunkId, sequenceIndex)`;
`std::map::insert` does not overwrite an existing key. -/
def insertKeyLoc (m : List (Nat × Nat × Nat)) (key : Nat) (loc : Nat × Nat) :
    List (Nat × Nat × Nat) :=
  if m.any (fun e => e.1 == key) then m else m ++ [(key, loc.1, loc.2)]

/-- Modelled from the spec: the `Index` constructor (declared in the
missing header).  The index is "constructed empty with a capacity hint";
`AddSequence` asserts `!m_chunks.empty()`, so construction pushes one
value-initialized chunk (`m_chunks.push_back({})`). -/
def Index.init (maxChunkSize : Nat) (primary : Bool) (trackFirstSamples : Bool) : Index :=
  { chunks := [{}]
    keyToSequenceInChunk := []
    maxChunkSize := maxChunkSize
    primary := primary
    trackFirstSamples := trackFirstSamples }

/-- Modelled from the spec: `Index::IsEmpty` (declared in the missing
header).  An index is empty exactly when no sequence has been added yet
("populated by repeated `AddSequence` calls"). -/
def Index.isEmpty (idx : Index) : Bool :=
  idx.chunks.all (fun c => c.sequences.isEmpty)

/-- The fatal `RuntimeError`s the build can raise. -/
inductive BuildError where
  /-- "Input file is empty" -/
  | emptyInput : BuildError
  /-- "Corpus expects non-numeric sequence keys but the CTF input file
  does not have them." -/
  | formatLineMode : BuildError
  /-- "Expected a sequence id at the offset ..., none was found." -/
  | noFirstKey : Nat → BuildError
  /-- "Maximum number of chunks exceeded" -/
  | chunkOverflow : BuildError
  /-- "Number of sequences overflow the chunk capacity." -/
  | seqOverflow : BuildError
deriving DecidableEq, Repr

/-- Result of `Index.addSequence`: success, or a fatal error carrying the
index state at the moment the C++ code would throw. -/
inductive AddResult where
  | ok : Index → AddResult
  | err : BuildError → Index → AddResult
deriving DecidableEq, Repr

/-- `Index::AddSequence` (Indexer.cpp, lines 240-280): sets the
descriptor's byte size, opens a new chunk when the current chunk has
positive byte size and would overflow the budget, updates the running
totals, maintains the secondary key map and appends the descriptor. -/
def Index.addSequence (idx : Index) (sd0 : SequenceDescriptor)
    (startOffsetInFile endOffsetInFile : Nat) : AddResult :=
  let sd := { sd0 with byteSize := endOffsetInFile - startOffsetInFile }
  let last := idx.chunks.getLastD {}
  let needNew : Bool := decide (0 < last.byteSize ∧ idx.maxChunkSize < last.byteSize + sd.byteSize)
  -- `shrink_to_fit` on the finalized chunk releases capacity only: no model effect.
  let base := if needNew then idx.chunks else idx.chunks.dropLast
  let chunk : ChunkDescriptor :=
    if needNew then
      { id := idx.chunks.length % UINT32_LIMIT, offset := startOffsetInFile }
    else last
  if needNew && decide (CHUNKID_MAX < idx.chunks.length + 1) then
    -- the chunk-count check is performed after the new chunk is pushed
    .err .chunkOverflow { idx with chunks := base ++ [chunk] }
  else
    let chunk :=
      if idx.trackFirstSamples then
        { chunk with sequenceOffsetInChunkInSamples :=
            chunk.sequenceOffsetInChunkInSamples ++ [chunk.numberOfSamples % UINT32_LIMIT] }
      else chunk
    let chunk := { chunk with
      byteSize := chunk.byteSize + sd.byteSize
      numberOfSequences := chunk.numberOfSequences + 1
      numberOfSamples := chunk.numberOfSamples + sd.numberOfSamples }
    if idx.primary = false ∧ UINT32_LIMIT ≤ chunk.sequences.length then
      -- `static_cast<uint32_t>(m_sequences.size()) != m_sequences.size()`
      .err .seqOverflow { idx with chunks := base ++ [chunk] }
    else
      let location : Nat × Nat := (chunk.id, chunk.sequences.length % UINT32_LIMIT)
      let idx2 :=
        if idx.primary = false then
          { idx with keyToSequenceInChunk := insertKeyLoc idx.keyToSequenceInChunk sd.key location }
        else idx
      let sd := { sd with offsetInChunk := startOffsetInFile - chunk.offset }
      .ok { idx2 with chunks := base ++ [{ chunk with sequences := chunk.sequences ++ [sd] }] }

/-- The index produced by a successful `AddSequence` call (the value of
`Index.addSequence` whenever it does not raise an error), as a total
function: proof-side normal form of the same steps. -/
def addSequenceOk (idx : Index) (sd0 : SequenceDescriptor)
    (startOffsetInFile endOffsetInFile : Nat) : Index :=
  let sd := { sd0 with byteSize := endOffsetInFile - startOffsetInFile }
  let last := idx.chunks.getLastD {}
  let needNew : Bool := decide (0 < last.byteSize ∧ idx.maxChunkSize < last.byteSize + sd.byteSize)
  let base := if needNew then idx.chunks else idx.chunks.dropLast
  let chunk : ChunkDescriptor :=
    if needNew then
      { id := idx.chunks.length % UINT32_LIMIT, offset := startOffsetInFile }
    else last
  let chunk :=
    if idx.trackFirstSamples then
      { chunk with sequenceOffsetInChunkInSamples :=
          chunk.sequenceOffsetInChunkInSamples ++ [chunk.numberOfSamples % UINT32_LIMIT] }
    else chunk
  let chunk := { chunk with
    byteSize := chunk.byteSize + sd.byteSize
    numberOfSequences := chunk.numberOfSequences + 1
    numberOfSamples := chunk.numberOfSamples + sd.numberOfSamples }
  let location : Nat × Nat := (chunk.id, chunk.sequences.length % UINT32_LIMIT)
  let idx2 :=
    if idx.primary = false then
      { idx with keyToSequenceInChunk := insertKeyLoc idx.keyToSequenceInChunk sd.key location }
    else idx
  let sd := { sd with offsetInChunk := startOffsetInFile - chunk.offset }
  { idx2 with chunks := base ++ [{ chunk with sequences := chunk.sequences ++ [sd] }] }

/-- The buffered-reader state of the `Indexer`: the input file as bytes,
the configured block size, how many bytes `fread` has consumed
(`fileReadPos`), the absolute offsets of the current block
(`m_fileOffsetStart` / `m_fileOffsetEnd`), the block contents, the index
of `m_bufferStart` within the block allocation (`startIdx`, 0 except
after the BOM skip), the cursor `m_pos` (`pos`) and the `m_done` flag. -/
structure ScanState where
  file : List Nat
  bufferSize : Nat
  fileReadPos : Nat
  fileOffsetStart : Nat
  fileOffsetEnd : Nat
  block : List Nat
  startIdx : Nat
  pos : Nat
  done : Bool
deriving DecidableEq, Repr

/-- `Indexer::RefillBuffer` (lines 37-57): reads the next block of at most
`bufferSize` bytes; zero bytes read sets `m_done`, otherwise the offsets,
the block, `m_bufferStart` and `m_pos` are reset.  (`fread` on a regular
file returns `min bufferSize remaining`; read failures are out of scope.) -/
def refillBuffer (s : ScanState) : ScanState :=
  if s.done then s
  else
    let bytesRead := min s.bufferSize (s.file.length - s.fileReadPos)
    if bytesRead = 0 then { s with done := true }
    else
      { s with
        fileOffsetStart := s.fileOffsetEnd
        fileOffsetEnd := s.fileOffsetEnd + bytesRead
        block := (s.file.drop s.fileReadPos).take bytesRead
        startIdx := 0
        pos := 0
        fileReadPos := s.fileReadPos + bytesRead }

/-- Modelled from the spec: `Indexer::GetFileOffset` (declared in the
missing header): "current absolute offset" is
`blockStartOffset + (cursor - bufferStart)`. -/
def getFileOffset (s : ScanState) : Nat :=
  s.fileOffsetStart + (s.pos - s.startIdx)

/-- `memchr(m_pos, ROW_DELIMITER, m_bufferEnd - m_pos)`: index of the
first newline byte (0x0A) in the block at or after the cursor. -/
def memchrNewline (s : ScanState) : Option Nat :=
  ((s.block.drop s.pos).findIdx? (fun c => c == 10)).map (fun i => i + s.pos)

/-- `isdigit` on a byte read through a `char`. -/
def isdigitByte (c : Nat) : Bool := 48 ≤ c && c ≤ 57

/-- `isspace` on a byte read through a `char`. -/
def isspaceByte (c : Nat) : Bool :=
  c == 32 || c == 9 || c == 10 || c == 11 || c == 12 || c == 13

/-- The recurring cursor move of the scanner: place `m_pos` at `p` and,
when it reaches `m_bufferEnd`, refill (`if (m_pos == m_bufferEnd)
RefillBuffer();`). -/
def arriveAt (s : ScanState) (p : Nat) : ScanState :=
  let s1 : ScanState := { s with pos := p }
  if s1.pos = s1.block.length then refillBuffer s1 else s1

/-- `Indexer::SkipLine` (lines 167-183): advance the cursor just past the
next newline, refilling when the newline ends the block (a failed search
leaves `m_pos` null until the next refill; the model parks the cursor at
the block end, which is observationally equivalent); return with `m_done`
set if the input ends first.  Fuel-indexed; `none` means out of fuel. -/
def skipLine : Nat → ScanState → Option ScanState
  | 0, _ => none
  | fuel + 1, s =>
    if s.done then some s
    else
      match memchrNewline s with
      | some i => some (arriveAt s (i + 1))
      | none => skipLine fuel (refillBuffer { s with pos := s.block.length })

/-- Loop of `Indexer::TryGetNumericSequenceId` (lines 185-209): `id` and
`found` are the accumulator variables; each digit extends the id in base
10 through `size_t` arithmetic, wrapping modulo `2^64`; the first
non-digit returns `found`; reaching end-of-input returns `false` (even
after digits). -/
def tryGetNumericSequenceIdLoop : Nat → Nat → Bool → ScanState → Option (Bool × Nat × ScanState)
  | 0, _, _, _ => none
  | fuel + 1, id, found, s =>
    if s.done then some (false, id, s)
    else
      let c := s.block.getD s.pos 0
      if ¬ isdigitByte c then some (found, id, s)
      else
        let id := (id * 10 + (c - 48)) % SIZET_LIMIT
        tryGetNumericSequenceIdLoop fuel id true (arriveAt s (s.pos + 1))

/-- `Indexer::TryGetNumericSequenceId`: the loop started with `id = 0`,
`found = false`. -/
def tryGetNumericSequenceId (fuel : Nat) (s : ScanState) : Option (Bool × Nat × ScanState) :=
  tryGetNumericSequenceIdLoop fuel 0 false s

/-- Loop of `Indexer::TryGetSymbolicSequenceId` (lines 211-238): the key
accumulates bytes up to the first whitespace, which resolves it through
`keyToId`; reaching end-of-input returns `false`. -/
def tryGetSymbolicSequenceIdLoop (keyToId : List Nat → Nat) :
    Nat → List Nat → Bool → ScanState → Option (Bool × Nat × ScanState)
  | 0, _, _, _ => none
  | fuel + 1, key, found, s =>
    if s.done then some (false, 0, s)
    else
      let c := s.block.getD s.pos 0
      if isspaceByte c then some (found, if found then keyToId key else 0, s)
      else
        tryGetSymbolicSequenceIdLoop keyToId fuel (key ++ [c]) true (arriveAt s (s.pos + 1))

/-- `Indexer::TryGetSymbolicSequenceId`: the loop started with an empty
key and `found = false`. -/
def tryGetSymbolicSequenceId (keyToId : List Nat → Nat) (fuel : Nat) (s : ScanState) :
    Option (Bool × Nat × ScanState) :=
  tryGetSymbolicSequenceIdLoop keyToId fuel [] false s

/-- The corpus collaborator: `IsNumericSequenceKeys()` and `KeyToId`. -/
structure Corpus where
  numeric : Bool
  keyToId : List Nat → Nat

/-- The `tryGetSequenceId` lambda of `Indexer::Build` (lines 99-103):
numeric or symbolic key parsing, depending on the corpus. -/
def tryGetSequenceId (co : Corpus) (fuel : Nat) (s : ScanState) :
    Option (Bool × Nat × ScanState) :=
  if co.numeric then tryGetNumericSequenceId fuel s
  else tryGetSymbolicSequenceId co.keyToId fuel s

/-- Local state of the `Indexer::BuildFromLines` loop: the line counter,
the `offset` variable (start of the current line) and the evolving scan
state and index. -/
structure LinesSt where
  lines : Nat
  offset : Nat
  scan : ScanState
  index : Index
deriving Repr

/-- Outcome of a build phase: success, fatal error (carrying the state at
the throw), or fuel exhaustion (a model artifact, never a behavior of the
program). -/
inductive BuildOutcome (α : Type) where
  | ok : α → BuildOutcome α
  | err : BuildError → α → BuildOutcome α
  | outOfFuel : BuildOutcome α
deriving DecidableEq, Repr

/-- The `while (!m_done)` loop of `Indexer::BuildFromLines` (lines 65-80):
each newline found closes one single-sample sequence keyed by its line
number; a failed search refills the buffer.  The arguments after the fuel
are the loop variables `lines` and `offset` and the evolving scan state
and index. -/
def linesLoop : Nat → Nat → Nat → ScanState → Index → BuildOutcome LinesSt
  | 0, _, _, _, _ => .outOfFuel
  | fuel + 1, lines, offset, s, idx =>
    if s.done then .ok { lines := lines, offset := offset, scan := s, index := idx }
    else
      match memchrNewline s with
      | some i =>
        let s1 := { s with pos := i }
        let sequenceOffset := offset
        let offset2 := getFileOffset s1 + 1
        match idx.addSequence { key := lines, numberOfSamples := 1 } sequenceOffset offset2 with
        | .ok idx2 => linesLoop fuel (lines + 1) offset2 { s1 with pos := i + 1 } idx2
        | .err e idx2 => .err e { lines := lines, offset := offset2, scan := s1, index := idx2 }
      | none => linesLoop fuel lines offset (refillBuffer { s with pos := s.block.length }) idx

/-- `Indexer::BuildFromLines` (lines 59-88): the loop above, then the
trailing not-newline-terminated partial line, if any, as a final
sequence. -/
def buildFromLines (fuel : Nat) (s : ScanState) (idx : Index) :
    BuildOutcome (ScanState × Index) :=
  match linesLoop fuel 0 (getFileOffset s) s idx with
  | .outOfFuel => .outOfFuel
  | .err e k => .err e (k.scan, k.index)
  | .ok k =>
    if k.offset < k.scan.fileOffsetEnd then
      match k.index.addSequence { key := k.lines, numberOfSamples := 1 } k.offset k.scan.fileOffsetEnd with
      | .ok idx2 => .ok (k.scan, idx2)
      | .err e idx2 => .err e (k.scan, idx2)
    else .ok (k.scan, k.index)

/-- Local state of the keyed loop of `Indexer::Build`: `sequenceOffset`,
`previousId` and the `uint32_t` counter `numberOfSamples`, plus the
evolving scan state and index. -/
structure KeyedSt where
  sequenceOffset : Nat
  previousId : Nat
  numberOfSamples : Nat
  scan : ScanState
  index : Index
deriving Repr

/-- The `while (!m_done)` loop of `Indexer::Build` (lines 146-162): skip
to the end of the line, count a sample (`uint32_t` increment), and when a
different key follows, close the previous sequence and open a new one.
The arguments after the fuel are the loop variables `sequenceOffset`,
`previousId` and `numberOfSamples` and the evolving scan state and
index. -/
def keyedLoop (co : Corpus) (F : Nat) :
    Nat → Nat → Nat → Nat → ScanState → Index → BuildOutcome KeyedSt
  | 0, _, _, _, _, _ => .outOfFuel
  | fuel + 1, sequenceOffset, previousId, numberOfSamples, s, idx =>
    if s.done then
      .ok { sequenceOffset := sequenceOffset, previousId := previousId,
            numberOfSamples := numberOfSamples, scan := s, index := idx }
    else
      match skipLine F s with
      | none => .outOfFuel
      | some s1 =>
        let offset := getFileOffset s1
        let samples := (numberOfSamples + 1) % UINT32_LIMIT
        if s1.done then
          keyedLoop co F fuel sequenceOffset previousId samples s1 idx
        else
          match tryGetSequenceId co F s1 with
          | none => .outOfFuel
          | some (found, id, s2) =>
            if found = true ∧ id ≠ previousId then
              match idx.addSequence
                  { key := previousId, numberOfSamples := samples } sequenceOffset offset with
              | .ok idx2 => keyedLoop co F fuel offset id 0 s2 idx2
              | .err e idx2 =>
                .err e { sequenceOffset := sequenceOffset, previousId := previousId,
                         numberOfSamples := samples, scan := s2, index := idx2 }
            else keyedLoop co F fuel sequenceOffset previousId samples s2 idx

/-- The `Indexer` object state: the buffered reader, `m_hasSequenceIds`,
`m_streamPrefix` (as a byte value) and `m_index`. -/
structure IndexerState where
  scan : ScanState
  hasSequenceIds : Bool
  streamPref : Nat
  index : Index
deriving Repr, DecidableEq

/-- The `Indexer` constructor (lines 17-35): fresh reader state, the
stream-prefix byte, `m_hasSequenceIds = !skipSequenceIds` and an empty
index.  (The null-file check concerns the out-of-scope file handle.) -/
def Indexer.init (file : List Nat) (primary skipSequenceIds : Bool) (streamPref : Nat)
    (chunkSize bufferSize : Nat) (trackFirstSamples : Bool) : IndexerState :=
  { scan :=
      { file := file, bufferSize := bufferSize, fileReadPos := 0,
        fileOffsetStart := 0, fileOffsetEnd := 0, block := [],
        startIdx := 0, pos := 0, done := false }
    hasSequenceIds := !skipSequenceIds
    streamPref := streamPref
    index := Index.init chunkSize primary trackFirstSamples }

/-- The BOM test-and-skip of `Indexer::Build` (lines 113-120): when the
first block holds strictly more than 3 bytes and starts with the UTF-8
BOM 0xEF 0xBB 0xBF, advance `m_pos`, `m_fileOffsetStart` and
`m_bufferStart` by 3. -/
def bomSkip (s : ScanState) : ScanState :=
  if 3 < s.block.length - s.startIdx ∧ s.block.getD s.startIdx 0 = 239 ∧
      s.block.getD (s.startIdx + 1) 0 = 187 ∧ s.block.getD (s.startIdx + 2) 0 = 191 then
    { s with pos := s.pos + 3, fileOffsetStart := s.fileOffsetStart + 3,
             startIdx := s.startIdx + 3 }
  else s

/-- `Indexer::Build` (lines 90-165): no-op on a populated index; read the
first block ("Input file is empty" if none); skip a leading BOM; decide
between the line-delimited mode (requiring a numeric-key corpus) and the
keyed mode (requiring a first key); scan; close the final sequence at the
end-of-file offset.  (`m_index.Reserve(filesize(m_file))` only reserves
vector capacity and has no observable effect.) -/
def Indexer.build (ix : IndexerState) (co : Corpus) (F : Nat) : BuildOutcome IndexerState :=
  if ix.index.isEmpty = false then .ok ix
  else
    let s0 := refillBuffer ix.scan
    if s0.done then .err .emptyInput { ix with scan := s0 }
    else
      let s1 := bomSkip s0
      if ix.hasSequenceIds = false ∨ s1.block.getD s1.startIdx 0 = ix.streamPref then
        if co.numeric = false then .err .formatLineMode { ix with scan := s1 }
        else
          match buildFromLines F s1 ix.index with
          | .ok (s2, idx2) => .ok { ix with hasSequenceIds := false, scan := s2, index := idx2 }
          | .err e (s2, idx2) =>
            .err e { ix with hasSequenceIds := false, scan := s2, index := idx2 }
          | .outOfFuel => .outOfFuel
      else
        let offset := getFileOffset s1
        match tryGetSequenceId co F s1 with
        | none => .outOfFuel
        | some (found, id, s2) =>
          if found = false then .err (.noFirstKey offset) { ix with scan := s2 }
          else
            match keyedLoop co F F offset id 0 s2 ix.index with
            | .outOfFuel => .outOfFuel
            | .err e k => .err e { ix with scan := k.scan, index := k.index }
            | .ok k =>
              match k.index.addSequence
                  { key := k.previousId, numberOfSamples := k.numberOfSamples }
                  k.sequenceOffset k.scan.fileOffsetEnd with
              | .ok idx2 => .ok { ix with scan := k.scan, index := idx2 }
              | .err e idx2 => .err e { ix with scan := k.scan, index := idx2 }

/-- ASCII text as a byte list (all inputs used here are 7-bit ASCII). -/
def asciiBytes (t : String) : List Nat := t.data.map Char.toNat

/-- Sum of the chunks' `byteSize` fields. -/
def Index.totalByteSize (idx : Index) : Nat :=
  (idx.chunks.map (fun c => c.byteSize)).sum

/-- All sequence descriptors of the index, in chunk order. -/
def Index.allSequences (idx : Index) : List SequenceDescriptor :=
  (idx.chunks.map (fun c => c.sequences)).flatten

/-- The `(key, numberOfSamples, absolute start, absolute end)` view of the
index: a sequence spans file bytes from `chunk.offset + offsetInChunk`
over `byteSize`. -/
def Index.absSpans (idx : Index) : List (Nat × Nat × Nat × Nat) :=
  idx.chunks.flatMap (fun c =>
    c.sequences.map (fun sd =>
      (sd.key, sd.numberOfSamples, c.offset + sd.offsetInChunk,
        c.offset + sd.offsetInChunk + sd.byteSize)))

/-- The index of a successful build, if any. -/
def BuildOutcome.okIndex : BuildOutcome IndexerState → Option Index
  | .ok st => some st.index
  | _ => none

/-- The index of a successful `addSequence`, if any. -/
def AddResult.okIdx : AddResult → Option Index
  | .ok i => some i
  | .err _ _ => none

/-- Whether a build outcome is the line-mode format error. -/
def isFormatErr : BuildOutcome IndexerState → Bool
  | .err .formatLineMode _ => true
  | _ => false

/-- The unread part of the input stream: the file from the current
absolute offset on. -/
def restOf (s : ScanState) : List Nat := s.file.drop (getFileOffset s)

/-- Maximal consecutive ASCII-digit prefix of a byte stream. -/
def digitPref (l : List Nat) : List Nat := l.takeWhile isdigitByte

/-- Base-10 value of a digit-byte list, as accumulated by the parser's
`size_t` arithmetic: each step wraps modulo `2^64`. -/
def natOfDigits (l : List Nat) : Nat :=
  l.foldl (fun a c => (a * 10 + (c - 48)) % SIZET_LIMIT) 0

/-- A corpus with numeric sequence keys, used for concrete runs. -/
def numCorpus : Corpus := { numeric := true, keyToId := fun _ => 0 }

/-- A corpus with symbolic sequence keys, used for concrete runs. -/
def symCorpus : Corpus := { numeric := false, keyToId := fun _ => 0 }

/-- The error of a failed build, if any. -/
def errOf : BuildOutcome IndexerState → Option BuildError
  | .err e _ => some e
  | _ => none

/-- The three-record numeric-key example input. -/
def c3File : List Nat := asciiBytes "0|data1\n0|data2\n1|data3\n"

/-- A malformed numeric-key input whose trailing line holds a key with no
completed record. -/
def c9File : List Nat := asciiBytes "0|a\n1"

/-- A two-record numeric-key input used for the BOM comparison. -/
def c8FileP : List Nat := asciiBytes "0|aaaa\n1|bbbb\n"

/-- The same input prefixed with the UTF-8 BOM. -/
def c8FileB : List Nat := [239, 187, 191] ++ c8FileP

/-- A keyless single-line input. -/
def c4File : List Nat := asciiBytes "a\n"

/-- An input whose first byte is the stream-prefix character `'|'`
(byte 124), triggering the line-delimited path without
`skipSequenceIds`. -/
def c4bFile : List Nat := asciiBytes "|x\n"

/-- The scan state after the first refill on the input `"12"`: two digit
bytes immediately followed by the end of the input. -/
def c5State : ScanState :=
  refillBuffer (Indexer.init (asciiBytes "12") true false 124 100 1024 false).scan

/-- The scan state after the first refill on the input `"5|x"`: a digit
followed by a non-digit byte. -/
def c5WState : ScanState :=
  refillBuffer (Indexer.init (asciiBytes "5|x") true false 124 100 1024 false).scan

/-- Whether `Build` skips a leading UTF-8 BOM on this input: the first
read block must hold strictly more than 3 bytes and start with
0xEF 0xBB 0xBF. -/
def bomSkipped (file : List Nat) (bufferSize : Nat) : Bool :=
  decide (3 < min bufferSize file.length) && decide (file.take 3 = [239, 187, 191])

/-- The reader state right after the first successful `RefillBuffer` on a
fresh indexer: the first `min bufferSize file.length` bytes are in the block. -/
def firstBlockState (file : List Nat) (bufferSize : Nat) : ScanState :=
  { file := file, bufferSize := bufferSize, fileReadPos := min bufferSize file.length,
    fileOffsetStart := 0, fileOffsetEnd := min bufferSize file.length,
    block := file.take (min bufferSize file.length), startIdx := 0, pos := 0, done := false }

/-- A sequence of `AddSequence` calls, stopping at the first error. -/
def addMany (idx : Index) : List (SequenceDescriptor × Nat × Nat) → AddResult
  | [] => .ok idx
  | (sd, a, b) :: rest =>
    match idx.addSequence sd a b with
    | .ok idx2 => addMany idx2 rest
    | e => e

/-- Two positive-size sequences against a 10-byte chunk budget: 5 bytes
`[0,5)`, then 7 bytes `[5,12)` (which must open a new chunk). -/
def c2Calls : List (SequenceDescriptor × Nat × Nat) :=
  [({ key := 0, numberOfSamples := 1 }, 0, 5), ({ key := 1, numberOfSamples := 1 }, 5, 12)]

/-- The index after the first call of `c2Calls`: one chunk of 5 bytes. -/
def c2Mid : Index :=
  { chunks := [{ id := 0, offset := 0, byteSize := 5, numberOfSequences := 1,
                 numberOfSamples := 1,
                 sequences := [{ key := 0, numberOfSamples := 1, byteSize := 5,
                                 offsetInChunk := 0 }],
                 sequenceOffsetInChunkInSamples := [] }]
    keyToSequenceInChunk := []
    maxChunkSize := 10
    primary := true
    trackFirstSamples := false }

/-- The index after both calls of `c2Calls`: the 7-byte sequence opened a
second chunk. -/
def c2Idx : Index :=
  { chunks := [{ id := 0, offset := 0, byteSize := 5, numberOfSequences := 1,
                 numberOfSamples := 1,
                 sequences := [{ key := 0, numberOfSamples := 1, byteSize := 5,
                                 offsetInChunk := 0 }],
                 sequenceOffsetInChunkInSamples := [] },
               { id := 1, offset := 5, byteSize := 7, numberOfSequences := 1,
                 numberOfSamples := 1,
                 sequences := [{ key := 1, numberOfSamples := 1, byteSize := 7,
                                 offsetInChunk := 0 }],
                 sequenceOffsetInChunkInSamples := [] }]
    keyToSequenceInChunk := []
    maxChunkSize := 10
    primary := true
    trackFirstSamples := false }

/-- The UTF-8 byte-order mark. -/
def bomBytes : List Nat := [239, 187, 191]

/-- Correspondence of one descriptor between a plain run and a BOM run:
same key, sample count and byte size; absolute start (chunk offset plus
offset in chunk) larger by 3. -/
def SeqRel (offP offB : Nat) (sP sB : SequenceDescriptor) : Prop :=
  sB.key = sP.key ∧ sB.numberOfSamples = sP.numberOfSamples ∧ sB.byteSize = sP.byteSize ∧
  offB + sB.offsetInChunk = offP + sP.offsetInChunk + 3

/-- Correspondence of one chunk between a plain run and a BOM run:
identical id, totals and first-sample offsets; the recorded file offset
larger by 3, except that the initial chunk's never-assigned offset stays 0
in both runs; the descriptors in pointwise correspondence. -/
def ChunkRel (cP cB : ChunkDescriptor) : Prop :=
  cB.id = cP.id ∧ cB.byteSize = cP.byteSize ∧
  cB.numberOfSequences = cP.numberOfSequences ∧ cB.numberOfSamples = cP.numberOfSamples ∧
  cB.sequenceOffsetInChunkInSamples = cP.sequenceOffsetInChunkInSamples ∧
  (cB.offset = cP.offset + 3 ∨ (cP.offset = 0 ∧ cB.offset = 0)) ∧
  List.Forall₂ (SeqRel cP.offset cB.offset) cP.sequences cB.sequences

/-- Correspondence of whole indices between a plain run and a BOM run:
chunks in pointwise correspondence, identical key map and configuration. -/
def IdxRel (idxP idxB : Index) : Prop :=
  List.Forall₂ ChunkRel idxP.chunks idxB.chunks ∧
  idxB.keyToSequenceInChunk = idxP.keyToSequenceInChunk ∧
  idxB.maxChunkSize = idxP.maxChunkSize ∧ idxB.primary = idxP.primary ∧
  idxB.trackFirstSamples = idxP.trackFirstSamples

/-- The state `Build` produces on the keyless input `"a\n"` in
line-delimited mode with numeric keys. -/
def c1State : IndexerState :=
  { scan := { file := [97, 10], bufferSize := 16, fileReadPos := 2, fileOffsetStart := 0,
              fileOffsetEnd := 2, block := [97, 10], startIdx := 0, pos := 2, done := true }
    hasSequenceIds := false
    streamPref := 124
    index := { chunks := [{ id := 0, offset := 0, byteSize := 2, numberOfSequences := 1,
                            numberOfSamples := 1,
                            sequences := [{ key := 0, numberOfSamples := 1, byteSize := 2,
                                            offsetInChunk := 0 }],
                            sequenceOffsetInChunkInSamples := [] }]
               keyToSequenceInChunk := []
               maxChunkSize := 100
               primary := true
               trackFirstSamples := false } }

/-- The state `Build` produces on the malformed keyed input `"0|a\n1"`. -/
def c9State : IndexerState :=
  { scan := { file := [48, 124, 97, 10, 49], bufferSize := 16, fileReadPos := 5,
              fileOffsetStart := 0, fileOffsetEnd := 5, block := [48, 124, 97, 10, 49],
              startIdx := 0, pos := 5, done := true }
    hasSequenceIds := true
    streamPref := 124
    index := { chunks := [{ id := 0, offset := 0, byteSize := 5, numberOfSequences := 1,
                            numberOfSamples := 1,
                            sequences := [{ key := 0, numberOfSamples := 1, byteSize := 5,
                                            offsetInChunk := 0 }],
                            sequenceOffsetInChunkInSamples := [] }]
               keyToSequenceInChunk := []
               maxChunkSize := 100
               primary := true
               trackFirstSamples := false } }

/-- The state `Build` produces on `"0|aaaa\n1|bbbb\n"` with a 5-byte
chunk budget. -/
def c8StateP : IndexerState :=
  { scan := { file := [48, 124, 97, 97, 97, 97, 10, 49, 124, 98, 98, 98, 98, 10],
              bufferSize := 1024, fileReadPos := 14, fileOffsetStart := 0, fileOffsetEnd := 14,
              block := [48, 124, 97, 97, 97, 97, 10, 49, 124, 98, 98, 98, 98, 10],
              startIdx := 0, pos := 14, done := true }
    hasSequenceIds := true
    streamPref := 124
    index := { chunks := [{ id := 0, offset := 0, byteSize := 7, numberOfSequences := 1,
                            numberOfSamples := 1,
                            sequences := [{ key := 0, numberOfSamples := 1, byteSize := 7,
                                            offsetInChunk := 0 }],
                            sequenceOffsetInChunkInSamples := [] },
                          { id := 1, offset := 7, byteSize := 7, numberOfSequences := 1,
                            numberOfSamples := 1,
                            sequences := [{ key := 1, numberOfSamples := 1, byteSize := 7,
                                            offsetInChunk := 0 }],
                            sequenceOffsetInChunkInSamples := [] }]
               keyToSequenceInChunk := []
               maxChunkSize := 5
               primary := true
               trackFirstSamples := false } }

/-- The state `Build` produces on the same input prefixed with the UTF-8
BOM. -/
def c8StateB : IndexerState :=
  { scan := { file := [239, 187, 191, 48, 124, 97, 97, 97, 97, 10, 49, 124, 98, 98, 98, 98, 10],
              bufferSize := 1024, fileReadPos := 17, fileOffsetStart := 3, fileOffsetEnd := 17,
              block := [239, 187, 191, 48, 124, 97, 97, 97, 97, 10, 49, 124, 98, 98, 98, 98, 10],
              startIdx := 3, pos := 17, done := true }
    hasSequenceIds := true
    streamPref := 124
    index := { chunks := [{ id := 0, offset := 0, byteSize := 7, numberOfSequences := 1,
                            numberOfSamples := 1,
                            sequences := [{ key := 0, numberOfSamples := 1, byteSize := 7,
                                            offsetInChunk := 3 }],
                            sequenceOffsetInChunkInSamples := [] },
                          { id := 1, offset := 10, byteSize := 7, numberOfSequences := 1,
                            numberOfSamples := 1,
                            sequences := [{ key := 1, numberOfSamples := 1, byteSize := 7,
                                            offsetInChunk := 0 }],
                            sequenceOffsetInChunkInSamples := [] }]
               keyToSequenceInChunk := []
               maxChunkSize := 5
               primary := true
               trackFirstSamples := false } }

/-- Two `addSequence` calls on a fresh index with a 10-byte budget: first
a zero-byte sequence `[5,5)`, then a 100-byte sequence `[5,105)`. -/
def c2Run : AddResult :=
  match Index.addSequence (Index.init 10 true false) { key := 0, numberOfSamples := 1 } 5 5 with
  | .ok i => Index.addSequence i { key := 1, numberOfSamples := 1 } 5 105
  | e => e

/-- The number of bytes `SkipLine` consumes from a byte stream: up to and
including the first newline, or the whole stream when there is none. -/
def lineLen (l : List Nat) : Nat :=
  match l.findIdx? (fun c => c == 10) with
  | some i => i + 1
  | none => l.length

/-- Well-formedness of a reader state, established by the first refill and
preserved by every scanning operation: the cursor lies between
`m_bufferStart` and `m_bufferEnd`; `m_fileOffsetEnd` equals the number of
bytes read so far; the block is the file slice ending at `fileReadPos`
and the recorded block offset matches; and once `m_done` is set the
cursor sits at the block end with the whole file consumed. -/
structure ScanInv (s : ScanState) : Prop where
  hbuf : 0 < s.bufferSize
  hstart : s.startIdx ≤ s.pos
  hpos : s.pos ≤ s.block.length
  hread : s.fileReadPos ≤ s.file.length
  hend : s.fileOffsetEnd = s.fileReadPos
  hblk : ∃ a, a + s.block.length = s.fileReadPos ∧
    s.block = (s.file.drop a).take s.block.length ∧ s.fileOffsetStart = a + s.startIdx
  hdone : s.done = true → s.pos = s.block.length ∧ s.fileReadPos = s.file.length

/-! ## Theorems -/

/-! ### Reader-state lemmas -/

theorem ScanInv.abs_spec {s : ScanState} (h : ScanInv s) :
    ∃ a, a + s.block.length = s.fileReadPos ∧ s.block = (s.file.drop a).take s.block.length ∧
      s.fileOffsetStart = a + s.startIdx ∧ getFileOffset s = a + s.pos := by
  obtain ⟨a, h1, h2, h3⟩ := h.hblk
  have hst := h.hstart
  exact ⟨a, h1, h2, h3, by simp [getFileOffset, h3]; omega⟩

theorem ScanInv.abs_le_readPos {s : ScanState} (h : ScanInv s) :
    getFileOffset s ≤ s.fileReadPos := by
  obtain ⟨a, h1, _, _, h4⟩ := h.abs_spec
  have := h.hpos
  omega

theorem ScanInv.streamDecomp {s : ScanState} (h : ScanInv s) :
    s.file.drop (getFileOffset s) = s.block.drop s.pos ++ s.file.drop s.fileReadPos := by
  obtain ⟨a, h1, h2, _, h4⟩ := h.abs_spec
  have hpos := h.hpos
  have hsplit : s.block.drop s.pos = (s.file.drop (a + s.pos)).take (s.block.length - s.pos) := by
    conv_lhs => rw [h2]
    rw [List.drop_take, List.drop_drop]
  rw [h4, hsplit]
  have hdd : s.file.drop s.fileReadPos = (s.file.drop (a + s.pos)).drop (s.block.length - s.pos) := by
    rw [List.drop_drop]
    congr 1
    omega
  rw [hdd, List.take_append_drop]

theorem ScanInv.rest_done {s : ScanState} (h : ScanInv s) (hd : s.done = true) :
    restOf s = [] := by
  obtain ⟨hp, hr⟩ := h.hdone hd
  have := h.streamDecomp
  rw [restOf, this, hp, List.drop_length, hr, List.drop_length]
  rfl

theorem ScanInv.rest_cons {s : ScanState} (h : ScanInv s) (hp : s.pos < s.block.length) :
    restOf s = s.block.getD s.pos 0 :: (s.block.drop (s.pos + 1) ++ s.file.drop s.fileReadPos) := by
  rw [restOf, h.streamDecomp, List.getD_eq_getElem s.block 0 hp,
    ← List.getElem_cons_drop s.block s.pos hp]
  rfl

theorem ScanInv.rest_length {s : ScanState} (h : ScanInv s) :
    (restOf s).length = s.file.length - getFileOffset s := by
  simp [restOf]

/-- Refilling with the cursor at the block end: the invariant is
preserved, the absolute offset (hence the remaining stream) is unchanged,
and afterwards either the cursor sits strictly inside the new block or
the reader is done. -/
theorem refill_at_end {s : ScanState} (h : ScanInv s) (hp : s.pos = s.block.length)
    (hd : s.done = false) :
    ScanInv (refillBuffer s) ∧ (refillBuffer s).file = s.file ∧
      (refillBuffer s).bufferSize = s.bufferSize ∧
      getFileOffset (refillBuffer s) = getFileOffset s ∧
      ((refillBuffer s).done = false → (refillBuffer s).pos < (refillBuffer s).block.length) ∧
      ((refillBuffer s).done = true ↔ s.fileReadPos = s.file.length) := by
  obtain ⟨a, ha1, ha2, ha3, ha4⟩ := h.abs_spec
  have hbuf := h.hbuf
  have hread := h.hread
  have hend := h.hend
  have hst := h.hstart
  rw [refillBuffer, hd]
  simp only [Bool.false_eq_true, if_false]
  by_cases h0 : min s.bufferSize (s.file.length - s.fileReadPos) = 0
  · rw [if_pos h0]
    have hfin : s.fileReadPos = s.file.length := by omega
    refine ⟨⟨hbuf, h.hstart, h.hpos, hread, hend, ⟨a, ha1, ha2, ha3⟩, ?_⟩, rfl, rfl, rfl, ?_, ?_⟩
    · intro _
      exact ⟨hp, hfin⟩
    · intro hdf
      simp at hdf
    · simp [hfin]
  · rw [if_neg h0]
    set b := min s.bufferSize (s.file.length - s.fileReadPos) with hb
    have hble : b ≤ s.file.length - s.fileReadPos := Nat.min_le_right _ _
    have hlenb : ((s.file.drop s.fileReadPos).take b).length = b := by
      simp [List.length_take, List.length_drop]
      omega
    refine ⟨⟨hbuf, Nat.le_refl 0, by simp, by simp; omega, by simp; omega, ?_, by simp⟩,
      rfl, rfl, ?_, ?_, ?_⟩
    · refine ⟨s.fileReadPos, ?_, ?_, ?_⟩
      · simp [hlenb]
      · simp [hlenb]
      · simp [hend]
    · simp only [getFileOffset]
      simp
      omega
    · intro _
      simp [hlenb]
      omega
    · simp
      omega

theorem lineLen_le (l : List Nat) : lineLen l ≤ l.length := by
  rw [lineLen]
  cases hf : l.findIdx? (fun c => c == 10) with
  | none => exact Nat.le_refl _
  | some i =>
    show i + 1 ≤ l.length
    obtain ⟨hlt, -, -⟩ := List.findIdx?_eq_some_iff_getElem.mp hf
    omega

theorem lineLen_append_none {xs ys : List Nat} (h : xs.findIdx? (fun c => c == 10) = none) :
    lineLen (xs ++ ys) = xs.length + lineLen ys := by
  rw [lineLen, lineLen, List.findIdx?_append, h]
  cases hf : ys.findIdx? (fun c => c == 10) with
  | none => simp [List.length_append]
  | some i => simp [Option.or]; omega

theorem lineLen_append_some {xs ys : List Nat} {j : Nat}
    (h : xs.findIdx? (fun c => c == 10) = some j) :
    lineLen (xs ++ ys) = j + 1 := by
  rw [lineLen, List.findIdx?_append, h]
  rfl

/-- Moving the cursor forward to a position inside the block (with the
end-of-block refill): the invariant is preserved and the absolute offset
advances by exactly the distance moved. -/
theorem arrive_inv {s : ScanState} {p : Nat} (h : ScanInv s) (hd : s.done = false)
    (hple : p ≤ s.block.length) (hpge : s.pos ≤ p) :
    ScanInv (arriveAt s p) ∧ (arriveAt s p).file = s.file ∧
      (arriveAt s p).bufferSize = s.bufferSize ∧
      getFileOffset (arriveAt s p) = getFileOffset s + (p - s.pos) ∧
      ((arriveAt s p).done = false → (arriveAt s p).pos < (arriveAt s p).block.length) ∧
      ((arriveAt s p).done = true → s.fileReadPos = s.file.length) := by
  have hinv1 : ScanInv { s with pos := p } :=
    ⟨h.hbuf, Nat.le_trans h.hstart hpge, hple, h.hread, h.hend, h.hblk, by intro hc; simp [hd] at hc⟩
  have habs1 : getFileOffset { s with pos := p } = getFileOffset s + (p - s.pos) := by
    simp only [getFileOffset]
    have hst := h.hstart
    omega
  have harr : arriveAt s p =
      if p = s.block.length then refillBuffer { s with pos := p } else { s with pos := p } := rfl
  rw [harr]
  by_cases hpe : p = s.block.length
  · rw [if_pos hpe]
    subst hpe
    have hr := refill_at_end hinv1 rfl (by simp [hd])
    refine ⟨hr.1, hr.2.1, hr.2.2.1, ?_, hr.2.2.2.2.1, ?_⟩
    · rw [hr.2.2.2.1, habs1]
    · intro hdt
      exact (hr.2.2.2.2.2.mp hdt)
  · rw [if_neg hpe]
    refine ⟨hinv1, rfl, rfl, habs1, ?_, ?_⟩
    · intro _
      simp
      omega
    · intro hc
      simp [hd] at hc

/-- Characterization of `SkipLine` in terms of the remaining input
stream: it consumes exactly one line (`lineLen`), and ends the scan
exactly when that line reaches the end of the input. -/
theorem skipLine_spec : ∀ {F : Nat} {s s' : ScanState}, ScanInv s → skipLine F s = some s' →
    ScanInv s' ∧ s'.file = s.file ∧ s'.bufferSize = s.bufferSize ∧
      getFileOffset s' = getFileOffset s + lineLen (restOf s) ∧
      (s'.done = false → s'.pos < s'.block.length) ∧
      (s'.done = true ↔ lineLen (restOf s) = (restOf s).length) := by
  intro F
  induction F with
  | zero => intro s s' _ hrun; simp [skipLine] at hrun
  | succ fuel ih =>
    intro s s' h hrun
    rw [skipLine] at hrun
    by_cases hd : s.done
    · rw [if_pos hd] at hrun
      have hrest := h.rest_done hd
      cases hrun
      refine ⟨h, rfl, rfl, by simp [hrest, lineLen], ?_, ?_⟩
      · intro hdf; rw [hdf] at hd; cases hd
      · simp [hd, hrest, lineLen]
    · rw [if_neg hd] at hrun
      simp only [Bool.not_eq_true] at hd
      obtain ⟨a, ha1, ha2, ha3, ha4⟩ := h.abs_spec
      have hps := h.hpos
      have hrd := h.hread
      have hstream := h.streamDecomp
      cases hm : memchrNewline s with
      | some i =>
        rw [hm] at hrun
        cases hrun
        rw [memchrNewline] at hm
        obtain ⟨j, hj, hij⟩ := Option.map_eq_some'.mp hm
        obtain ⟨hjlt, hjten, hjmin⟩ := List.findIdx?_eq_some_iff_getElem.mp hj
        rw [List.length_drop] at hjlt
        have hij2 : i = j + s.pos := by simpa using hij.symm
        have hple : i + 1 ≤ s.block.length := by omega
        have hpge : s.pos ≤ i + 1 := by omega
        obtain ⟨hA, hB, hC, hD, hE, hF⟩ := arrive_inv h hd hple hpge
        have hlin : lineLen (restOf s) = j + 1 := by
          rw [restOf, hstream]
          exact lineLen_append_some hj
        refine ⟨hA, hB, hC, by rw [hD, hlin]; omega, hE, ?_⟩
        have hrlen : (restOf s).length = (s.block.length - s.pos) + (s.file.length - s.fileReadPos) := by
          rw [restOf, hstream]
          simp [List.length_append, List.length_drop]
        constructor
        · intro hdt
          have hfin := hF hdt
          -- done after the move: the cursor reached the block end and the file was exhausted
          rw [arriveAt] at hdt
          by_cases hpe : i + 1 = s.block.length
          · rw [hlin, hrlen]
            omega
          · simp only [if_neg (by simpa using hpe)] at hdt
            simp [hd] at hdt
        · intro hll
          rw [hlin, hrlen] at hll
          have hij2 : i + 1 = s.block.length := by omega
          have hfin : s.fileReadPos = s.file.length := by omega
          rw [arriveAt]
          simp only [hij2, if_pos rfl]
          rw [refillBuffer]
          simp [hd, hfin]
      | none =>
        rw [hm] at hrun
        rw [memchrNewline] at hm
        have hfidx : (s.block.drop s.pos).findIdx? (fun c => c == 10) = none := by
          cases hx : (s.block.drop s.pos).findIdx? (fun c => c == 10) with
          | none => rfl
          | some v => rw [hx] at hm; simp at hm
        have hinv1 : ScanInv { s with pos := s.block.length } :=
          ⟨h.hbuf, Nat.le_trans h.hstart h.hpos, Nat.le_refl _, h.hread, h.hend, h.hblk,
            by intro hc; simp [hd] at hc⟩
        have hr := refill_at_end hinv1 rfl (by simp [hd])
        obtain ⟨hrA, hrB, hrC, hrD, hrE, hrF⟩ := hr
        set s2 := refillBuffer { s with pos := s.block.length } with hs2
        obtain ⟨hA, hB, hC, hD, hE, hG⟩ := ih hrA hrun
        have habs2 : getFileOffset s2 = a + s.block.length := by
          rw [hrD]
          simp only [getFileOffset]
          have hst := h.hstart
          have hpos := h.hpos
          omega
        have hrest2 : restOf s2 = s.file.drop s.fileReadPos := by
          rw [restOf, habs2, show s2.file = s.file from hrB, ha1]
        have hsplit : restOf s = s.block.drop s.pos ++ restOf s2 := by
          rw [restOf, hstream, hrest2]
        have hlin : lineLen (restOf s) = (s.block.length - s.pos) + lineLen (restOf s2) := by
          rw [hsplit, lineLen_append_none hfidx, List.length_drop]
        refine ⟨hA, by rw [hB]; exact hrB, by rw [hC]; exact hrC, ?_, hE, ?_⟩
        · rw [hD, habs2, hlin, ha4]
          omega
        · rw [hG, hlin, hsplit]
          have hll2 := lineLen_le (restOf s2)
          simp only [List.length_append, List.length_drop]
          omega

/-- The maximal digit prefix is never longer than the stream. -/
theorem digitPref_length_le (l : List Nat) : (digitPref l).length ≤ l.length := by
  rw [digitPref]
  induction l with
  | nil => simp
  | cons x xs ih =>
    rw [List.takeWhile_cons]
    by_cases hx : isdigitByte x
    · rw [if_pos hx]
      simpa using ih
    · rw [if_neg hx]
      simp

/-- Characterization of the numeric-key parser loop in terms of the
remaining input stream `r` and its maximal digit prefix `ds`: the loop
consumes exactly `ds`, accumulates its base-10 value onto the incoming
accumulator through the wrapping `size_t` step, ends the scan exactly
when the digits reach the end of the input, and reports `found` exactly
when a byte stops the accumulation
before the end of the input (inheriting `found0` when the very first byte
is a non-digit). -/
theorem tryGetNumericSequenceIdLoop_spec :
    ∀ {F id0 : Nat} {found0 : Bool} {s : ScanState} {found : Bool} {id : Nat} {s' : ScanState},
    ScanInv s → (s.done = true ∨ s.pos < s.block.length) →
    tryGetNumericSequenceIdLoop F id0 found0 s = some (found, id, s') →
    ScanInv s' ∧ s'.file = s.file ∧ s'.bufferSize = s.bufferSize ∧
      getFileOffset s' = getFileOffset s + (digitPref (restOf s)).length ∧
      (s'.done = true ↔ (digitPref (restOf s)).length = (restOf s).length) ∧
      (s'.done = false → s'.pos < s'.block.length) ∧
      id = (digitPref (restOf s)).foldl (fun a c => (a * 10 + (c - 48)) % SIZET_LIMIT) id0 ∧
      (found = true ↔ (restOf s ≠ [] ∧
        (if isdigitByte ((restOf s).headD 0) = true then
          (digitPref (restOf s)).length < (restOf s).length else found0 = true))) ∧
      (found = false → s' = s ∨ s'.done = true) := by
  intro F
  induction F with
  | zero => intro id0 found0 s found id s' _ _ hrun; simp [tryGetNumericSequenceIdLoop] at hrun
  | succ fuel ih =>
    intro id0 found0 s found id s' h hpok hrun
    rw [tryGetNumericSequenceIdLoop] at hrun
    by_cases hd : s.done
    · rw [if_pos hd] at hrun
      have hrest := h.rest_done hd
      cases hrun
      refine ⟨h, rfl, rfl, by simp [hrest, digitPref], ?_, ?_, by simp [hrest, digitPref], ?_, ?_⟩
      · simp [hd, hrest, digitPref]
      · intro hdf; rw [hdf] at hd; cases hd
      · simp [hrest]
      · intro _
        exact Or.inl rfl
    · rw [if_neg hd] at hrun
      simp only [Bool.not_eq_true] at hd
      have hpl : s.pos < s.block.length := by
        cases hpok with
        | inl hc => rw [hc] at hd; cases hd
        | inr hp => exact hp
      have hrc := h.rest_cons hpl
      set c := s.block.getD s.pos 0 with hc
      by_cases hdig : isdigitByte c
      · rw [if_neg (by simp [hdig])] at hrun
        have hple : s.pos + 1 ≤ s.block.length := hpl
        obtain ⟨hA1, hB1, hC1, hD1, hE1, hF1⟩ := arrive_inv h hd hple (Nat.le_succ _)
        set s2 := arriveAt s (s.pos + 1) with hs2
        have habs2 : getFileOffset s2 = getFileOffset s + 1 := by
          rw [hD1]
          omega
        have hrest2 : restOf s2 = (restOf s).tail := by
          rw [restOf, restOf, hB1, habs2, ← List.tail_drop]
        have htail : (restOf s).tail = s.block.drop (s.pos + 1) ++ s.file.drop s.fileReadPos := by
          rw [hrc]
          rfl
        have hds : digitPref (restOf s) = c :: digitPref (restOf s2) := by
          rw [digitPref, hrc, List.takeWhile_cons, if_pos hdig, hrest2, htail, digitPref]
        have hrlen : (restOf s).length = (restOf s2).length + 1 := by
          rw [hrest2, hrc]
          simp
        have hpok2 : s2.done = true ∨ s2.pos < s2.block.length := by
          by_cases hd2 : s2.done
          · exact Or.inl hd2
          · exact Or.inr (hE1 (by simpa using hd2))
        have hrun2 : tryGetNumericSequenceIdLoop fuel ((id0 * 10 + (c - 48)) % SIZET_LIMIT)
            true s2 = some (found, id, s') := hrun
        obtain ⟨iA, iB, iC, iD, iE, iF, iG, iH, iI⟩ := ih hA1 hpok2 hrun2
        have hle2 := digitPref_length_le (restOf s2)
        refine ⟨iA, by rw [iB, hB1], by rw [iC, hC1], ?_, ?_, iF, ?_, ?_, ?_⟩
        · rw [iD, habs2, hds]
          simp
          omega
        · rw [iE, hds, hrlen]
          simp
        · rw [iG, hds]
          simp
        · rw [iH]
          have hgoalr : (restOf s ≠ [] ∧
              (if isdigitByte ((restOf s).headD 0) = true then
                (digitPref (restOf s)).length < (restOf s).length else found0 = true)) ↔
              (digitPref (restOf s2)).length < (restOf s2).length := by
            rw [hrc]
            simp only [List.headD_cons, hdig, if_pos rfl, ne_eq, reduceCtorEq,
              not_false_eq_true, true_and]
            rw [← hrc, hds, hrlen]
            simp
          rw [hgoalr]
          constructor
          · rintro ⟨hr2ne, hcond⟩
            by_cases hdig2 : isdigitByte ((restOf s2).headD 0) = true
            · rw [if_pos hdig2] at hcond
              exact hcond
            · have hds2 : digitPref (restOf s2) = [] := by
                cases hx : restOf s2 with
                | nil => simp [digitPref]
                | cons y ys =>
                  rw [hx] at hdig2
                  simp only [List.headD_cons] at hdig2
                  rw [digitPref, List.takeWhile_cons, if_neg (by simpa using hdig2)]
              rw [hds2]
              simpa using List.length_pos.mpr hr2ne
          · intro hlt
            have hr2ne : restOf s2 ≠ [] := by
              intro hcon
              rw [hcon] at hlt
              simp [digitPref] at hlt
            refine ⟨hr2ne, ?_⟩
            by_cases hdig2 : isdigitByte ((restOf s2).headD 0) = true
            · rw [if_pos hdig2]
              exact hlt
            · rw [if_neg hdig2]
        · intro hff
          right
          rw [iE]
          have hnot : ¬(restOf s2 ≠ [] ∧
              (if isdigitByte ((restOf s2).headD 0) = true then
                (digitPref (restOf s2)).length < (restOf s2).length else (true : Bool) = true)) := by
            intro hcon
            have hft := iH.mpr hcon
            rw [hff] at hft
            cases hft
          by_cases hr2 : restOf s2 = []
          · rw [hr2]
            simp [digitPref]
          · by_cases hdig2 : isdigitByte ((restOf s2).headD 0) = true
            · have hnlt : ¬ (digitPref (restOf s2)).length < (restOf s2).length := by
                intro hlt
                exact hnot ⟨hr2, by rw [if_pos hdig2]; exact hlt⟩
              omega
            · exact absurd ⟨hr2, by rw [if_neg hdig2]⟩ hnot
      · rw [if_pos (by simpa using hdig)] at hrun
        cases hrun
        have hrne : restOf s ≠ [] := by rw [hrc]; simp
        have hdpn : digitPref (restOf s) = [] := by
          rw [digitPref, hrc, List.takeWhile_cons, if_neg (by simpa using hdig)]
        refine ⟨h, rfl, rfl, by simp [hdpn], ?_, ?_, by simp [hdpn], ?_, ?_⟩
        · simp only [hd, hdpn, List.length_nil]
          rw [hrc]
          simp
        · intro _
          exact hpl
        · rw [hrc]
          simp only [List.headD_cons]
          rw [if_neg (by simpa using hdig)]
          simp
        · intro _
          exact Or.inl rfl

theorem digitPref_eq_self_of_length {l : List Nat}
    (h : (digitPref l).length = l.length) : digitPref l = l := by
  induction l with
  | nil => rfl
  | cons x xs ih =>
    rw [digitPref, List.takeWhile_cons] at h ⊢
    by_cases hx : isdigitByte x
    · rw [if_pos hx] at h ⊢
      simp only [List.length_cons, Nat.add_right_cancel_iff] at h
      exact congrArg (fun t => x :: t) (ih h)
    · rw [if_neg hx] at h
      simp at h

/-- C5 (amended): characterization of `TryGetNumericSequenceId`.  It
reports a key exactly when the maximal digit prefix of the remaining
input is non-empty and is stopped by a further byte before end-of-input;
in that case the key is the base-10 value of that prefix as accumulated
by `size_t` arithmetic (wrapping modulo `2^64` on prefixes valued
`2^64` or more) and the scan is not done.  It reports "no key found" in
exactly two situations: the first remaining byte is a non-digit (no
input consumed, state unchanged), or end-of-input is reached — even when
one or more digits were read first, in which case the whole remaining
input is the digit prefix and it has been consumed.  (The original claim
fails in the latter situation, see the counterexample.) -/
theorem C5_amended_parser_characterization (F : Nat) (s : ScanState) (found : Bool)
    (id : Nat) (s' : ScanState) (h : ScanInv s)
    (hpok : s.done = true ∨ s.pos < s.block.length)
    (hrun : tryGetNumericSequenceId F s = some (found, id, s')) :
    (found = true ↔ digitPref (restOf s) ≠ [] ∧
      (digitPref (restOf s)).length < (restOf s).length) ∧
    (found = true → id = natOfDigits (digitPref (restOf s)) ∧ s'.done = false) ∧
    (found = false →
      (s' = s ∧ digitPref (restOf s) = []) ∨ (s'.done = true ∧ digitPref (restOf s) = restOf s)) ∧
    getFileOffset s' = getFileOffset s + (digitPref (restOf s)).length := by
  obtain ⟨iA, iB, iC, iD, iE, iF, iG, iH, iI⟩ := tryGetNumericSequenceIdLoop_spec h hpok hrun
  have hle := digitPref_length_le (restOf s)
  have hiff : found = true ↔ digitPref (restOf s) ≠ [] ∧
      (digitPref (restOf s)).length < (restOf s).length := by
    rw [iH]
    by_cases hr : restOf s = []
    · simp [hr, digitPref]
    · cases hx : restOf s with
      | nil => exact absurd hx hr
      | cons y ys =>
        simp only [List.headD_cons]
        by_cases hy : isdigitByte y = true
        · rw [if_pos hy]
          have hdp2 : digitPref (y :: ys) = y :: digitPref ys := by
            rw [digitPref, List.takeWhile_cons, if_pos hy]
            rfl
          simp [hx, hdp2]
        · rw [if_neg hy]
          have hdp2 : digitPref (y :: ys) = [] := by
            rw [digitPref, List.takeWhile_cons, if_neg hy]
          simp [hx, hdp2]
  refine ⟨hiff, ?_, ?_, iD⟩
  · intro hft
    refine ⟨iG, ?_⟩
    obtain ⟨-, hlt⟩ := hiff.mp hft
    cases hdn : s'.done with
    | false => rfl
    | true =>
      rw [iE.mp hdn] at hlt
      omega
  · intro hff
    by_cases hlen : (digitPref (restOf s)).length = (restOf s).length
    · exact Or.inr ⟨iE.mpr hlen, digitPref_eq_self_of_length hlen⟩
    · left
      rcases iI hff with hss | hdn
      · refine ⟨hss, ?_⟩
        by_cases hdp : digitPref (restOf s) = []
        · exact hdp
        · exfalso
          have : found = true := hiff.mpr ⟨hdp, by omega⟩
          rw [hff] at this
          cases this
      · exact absurd (iE.mp hdn) hlen

/-- C5 witness: the amended characterization applied to the concrete
input `"5|x"`, where the parser finds key 5 by stopping at the byte
0x7C. -/
theorem C5_witness :
    tryGetNumericSequenceId 10 c5WState = some (true, 5, { c5WState with pos := 1 }) ∧
    ((true : Bool) = true ↔ digitPref (restOf c5WState) ≠ [] ∧
      (digitPref (restOf c5WState)).length < (restOf c5WState).length) :=
  ⟨by decide,
    (C5_amended_parser_characterization 10 c5WState true 5 { c5WState with pos := 1 }
      ⟨by decide, by decide, by decide, by decide, by decide,
        ⟨0, by decide, by decide, by decide⟩, by decide⟩
      (by decide) (by decide)).1⟩

/-! ### `AddSequence` lemmas -/

theorem totalByteSize_dropLast (l : List ChunkDescriptor) :
    (List.map (fun c => c.byteSize) l.dropLast).sum +
      (l.getLastD ({} : ChunkDescriptor)).byteSize = (List.map (fun c => c.byteSize) l).sum := by
  induction l using List.reverseRecOn with
  | nil => simp [ChunkDescriptor.byteSize]
  | append_singleton xs x ih => simp [List.dropLast_concat, List.getLastD_concat]

/-- Whenever `AddSequence` succeeds, its result is the value of the
total function `addSequenceOk`. -/
theorem addSequence_ok_eq {idx : Index} {sd : SequenceDescriptor} {a b : Nat} {idx2 : Index}
    (hrun : Index.addSequence idx sd a b = .ok idx2) :
    idx2 = addSequenceOk idx sd a b := by
  by_cases htr : idx.trackFirstSamples = true <;>
  by_cases hnew : 0 < (idx.chunks.getLastD {}).byteSize ∧
      idx.maxChunkSize < (idx.chunks.getLastD {}).byteSize + (b - a) <;>
  simp only [Index.addSequence, htr, hnew, and_self, decide_True, decide_False, Bool.true_and,
    Bool.false_and, Bool.false_eq_true, Bool.true_eq_false, eq_self_iff_true,
    if_true, if_false] at hrun <;>
  simp only [addSequenceOk, htr, hnew, and_self, decide_True, decide_False, Bool.false_eq_true,
    Bool.true_eq_false, eq_self_iff_true, if_true, if_false]
  all_goals (
    first
    | (split at hrun
       · cases hrun
       · split at hrun
         · cases hrun
         · cases hrun
           rfl)
    | (split at hrun
       · cases hrun
       · cases hrun
         rfl))

/-- A successful `AddSequence` grows the sum of the chunks' byte sizes by
exactly the byte size of the added sequence. -/
theorem addSequence_total {idx : Index} {sd : SequenceDescriptor} {a b : Nat} {idx2 : Index}
    (hrun : Index.addSequence idx sd a b = .ok idx2) :
    idx2.totalByteSize = idx.totalByteSize + (b - a) := by
  rw [addSequence_ok_eq hrun]
  by_cases htr : idx.trackFirstSamples = true <;>
  by_cases hnew : 0 < (idx.chunks.getLastD {}).byteSize ∧
      idx.maxChunkSize < (idx.chunks.getLastD {}).byteSize + (b - a) <;>
  simp only [addSequenceOk, Index.totalByteSize, htr, hnew, and_self, decide_True, decide_False,
    Bool.false_eq_true, Bool.true_eq_false, eq_self_iff_true, if_true, if_false,
    List.map_append, List.sum_append, List.map_cons, List.map_nil,
    List.sum_cons, List.sum_nil] <;>
  rw [← totalByteSize_dropLast idx.chunks] <;> omega

/-- A failed `AddSequence` raises one of the two capacity errors. -/
theorem addSequence_err {idx : Index} {sd : SequenceDescriptor} {a b : Nat} {e : BuildError}
    {idx2 : Index} (hrun : Index.addSequence idx sd a b = .err e idx2) :
    e = .chunkOverflow ∨ e = .seqOverflow := by
  by_cases htr : idx.trackFirstSamples = true <;>
  by_cases hnew : 0 < (idx.chunks.getLastD {}).byteSize ∧
      idx.maxChunkSize < (idx.chunks.getLastD {}).byteSize + (b - a) <;>
  simp only [Index.addSequence, htr, hnew, and_self, decide_True, decide_False, Bool.true_and,
    Bool.false_and, Bool.false_eq_true, Bool.true_eq_false, eq_self_iff_true,
    if_true, if_false] at hrun
  all_goals first
    | (split at hrun
       · cases hrun
         exact Or.inl rfl
       · split at hrun
         · cases hrun
           exact Or.inr rfl
         · cases hrun)
    | (split at hrun
       · cases hrun
         exact Or.inr rfl
       · cases hrun)

/-- A successful `AddSequence` leaves a non-empty index with a non-empty
chunk list. -/
theorem addSequence_ok_isEmpty {idx : Index} {sd : SequenceDescriptor} {a b : Nat} {idx2 : Index}
    (hrun : Index.addSequence idx sd a b = .ok idx2) :
    idx2.isEmpty = false ∧ idx2.chunks ≠ [] := by
  rw [addSequence_ok_eq hrun]
  by_cases htr : idx.trackFirstSamples = true <;>
  by_cases hnew : 0 < (idx.chunks.getLastD {}).byteSize ∧
      idx.maxChunkSize < (idx.chunks.getLastD {}).byteSize + (b - a) <;>
  simp [addSequenceOk, Index.isEmpty, htr, hnew, and_self, List.all_append]

theorem getLastD_mem {l : List ChunkDescriptor} (h : l ≠ []) :
    l.getLastD ({} : ChunkDescriptor) ∈ l := by
  rw [List.getLastD_eq_getLast?, List.getLast?_eq_getLast l h]
  exact List.getLast_mem h

/-- Every descriptor of the index after a successful `AddSequence` either
was already present or is the added one, which keeps the given key and
sample count. -/
theorem addSequence_mem {idx : Index} {sd : SequenceDescriptor} {a b : Nat} {idx2 : Index}
    (hrun : Index.addSequence idx sd a b = .ok idx2) :
    ∀ x ∈ idx2.allSequences, x ∈ idx.allSequences ∨
      (x.key = sd.key ∧ x.numberOfSamples = sd.numberOfSamples) := by
  rw [addSequence_ok_eq hrun]
  intro x hx
  rw [Index.allSequences, List.mem_flatten] at hx
  obtain ⟨lseq, hlseq, hxl⟩ := hx
  rw [List.mem_map] at hlseq
  obtain ⟨ch, hch, hchseq⟩ := hlseq
  subst hchseq
  have hmemOf : ∀ c2 : ChunkDescriptor, c2 ∈ idx.chunks → x ∈ c2.sequences →
      x ∈ idx.allSequences := by
    intro c2 hc2 hx2
    rw [Index.allSequences, List.mem_flatten]
    exact ⟨c2.sequences, List.mem_map_of_mem _ hc2, hx2⟩
  revert hch hxl
  by_cases htr : idx.trackFirstSamples = true <;>
  by_cases hnew : 0 < (idx.chunks.getLastD {}).byteSize ∧
      idx.maxChunkSize < (idx.chunks.getLastD {}).byteSize + (b - a) <;>
  simp only [addSequenceOk, htr, hnew, and_self, decide_True, decide_False, Bool.false_eq_true,
    Bool.true_eq_false, eq_self_iff_true, if_true, if_false, List.mem_append] <;>
  intro hch hxl
  -- first and third goals: a new chunk is opened, the old chunks are
  -- intact and the new chunk holds only `sd`; second and fourth: the
  -- last chunk is extended in place
  · rcases hch with hold | hnewc
    · exact Or.inl (hmemOf ch hold hxl)
    · simp only [List.mem_singleton] at hnewc
      subst hnewc
      simp only [List.mem_append, List.mem_singleton] at hxl
      rcases hxl with hil | hlast
      · simp at hil
      · subst hlast
        exact Or.inr ⟨rfl, rfl⟩
  · rcases hch with hold | hnewc
    · exact Or.inl (hmemOf ch (List.Sublist.mem hold (List.dropLast_sublist _)) hxl)
    · simp only [List.mem_singleton] at hnewc
      subst hnewc
      simp only [List.mem_append, List.mem_singleton] at hxl
      rcases hxl with hil | hlast
      · by_cases hnil : idx.chunks = []
        · rw [hnil] at hil
          simp [List.getLastD] at hil
        · exact Or.inl (hmemOf _ (getLastD_mem hnil) hil)
      · subst hlast
        exact Or.inr ⟨rfl, rfl⟩
  · rcases hch with hold | hnewc
    · exact Or.inl (hmemOf ch hold hxl)
    · simp only [List.mem_singleton] at hnewc
      subst hnewc
      simp only [List.mem_append, List.mem_singleton] at hxl
      rcases hxl with hil | hlast
      · simp at hil
      · subst hlast
        exact Or.inr ⟨rfl, rfl⟩
  · rcases hch with hold | hnewc
    · exact Or.inl (hmemOf ch (List.Sublist.mem hold (List.dropLast_sublist _)) hxl)
    · simp only [List.mem_singleton] at hnewc
      subst hnewc
      simp only [List.mem_append, List.mem_singleton] at hxl
      rcases hxl with hil | hlast
      · by_cases hnil : idx.chunks = []
        · rw [hnil] at hil
          simp [List.getLastD] at hil
        · exact Or.inl (hmemOf _ (getLastD_mem hnil) hil)
      · subst hlast
        exact Or.inr ⟨rfl, rfl⟩

/-! ### Loop lemmas -/

/-- Errors escaping the `BuildFromLines` loop are capacity errors from
`AddSequence`. -/
theorem linesLoop_err : ∀ {fuel lines offset : Nat} {s : ScanState} {idx : Index}
    {e : BuildError} {k : LinesSt},
    linesLoop fuel lines offset s idx = .err e k → e = .chunkOverflow ∨ e = .seqOverflow := by
  intro fuel
  induction fuel with
  | zero => intro lines offset s idx e k hrun; simp [linesLoop] at hrun
  | succ fuel ih =>
    intro lines offset s idx e k hrun
    rw [linesLoop] at hrun
    by_cases hd : s.done
    · rw [if_pos hd] at hrun
      cases hrun
    · rw [if_neg hd] at hrun
      cases hm : memchrNewline s with
      | some i =>
        rw [hm] at hrun
        simp only [] at hrun
        cases hadd : idx.addSequence { key := lines, numberOfSamples := 1 } offset
            (getFileOffset { s with pos := i } + 1) with
        | ok idx2 =>
          rw [hadd] at hrun
          exact ih hrun
        | err e2 idx2 =>
          rw [hadd] at hrun
          cases hrun
          exact addSequence_err hadd
      | none =>
        rw [hm] at hrun
        exact ih hrun

/-- Invariant of the `BuildFromLines` loop: it runs to the end of the
input, the `offset` variable never exceeds the current absolute offset,
the chunks' total byte size grows by exactly the distance `offset`
travelled, the index only picks up single-sample descriptors, and it is
left untouched only when nothing was emitted. -/
theorem linesLoop_spec : ∀ {fuel lines offset : Nat} {s : ScanState} {idx : Index} {k : LinesSt},
    ScanInv s → offset ≤ getFileOffset s →
    linesLoop fuel lines offset s idx = .ok k →
    ScanInv k.scan ∧ k.scan.file = s.file ∧ k.scan.bufferSize = s.bufferSize ∧
      k.scan.done = true ∧
      k.offset ≤ k.scan.fileOffsetEnd ∧
      k.index.totalByteSize + offset = idx.totalByteSize + k.offset ∧
      offset ≤ k.offset ∧
      ((k.index = idx ∧ k.offset = offset) ∨ (k.index.isEmpty = false ∧ k.index.chunks ≠ [])) ∧
      (∀ x ∈ k.index.allSequences, x ∈ idx.allSequences ∨ x.numberOfSamples = 1) := by
  intro fuel
  induction fuel with
  | zero => intro lines offset s idx k _ _ hrun; simp [linesLoop] at hrun
  | succ fuel ih =>
    intro lines offset s idx k h hoff hrun
    rw [linesLoop] at hrun
    by_cases hd : s.done
    · rw [if_pos hd] at hrun
      cases hrun
      have habs := h.abs_le_readPos
      have hend := h.hend
      have hoe : offset ≤ s.fileOffsetEnd := by omega
      exact ⟨h, rfl, rfl, hd, hoe, rfl, Nat.le_refl _, Or.inl ⟨rfl, rfl⟩,
        fun x hx => Or.inl hx⟩
    · rw [if_neg hd] at hrun
      simp only [Bool.not_eq_true] at hd
      obtain ⟨a, ha1, ha2, ha3, ha4⟩ := h.abs_spec
      have hps := h.hpos
      have hst := h.hstart
      cases hm : memchrNewline s with
      | some i =>
        rw [hm] at hrun
        simp only [] at hrun
        rw [memchrNewline] at hm
        obtain ⟨j, hj, hij⟩ := Option.map_eq_some'.mp hm
        obtain ⟨hjlt, -, -⟩ := List.findIdx?_eq_some_iff_getElem.mp hj
        rw [List.length_drop] at hjlt
        have hij2 : i = j + s.pos := by simpa using hij.symm
        have habs1 : getFileOffset { s with pos := i } = a + i := by
          simp only [getFileOffset]
          omega
        cases hadd : idx.addSequence { key := lines, numberOfSamples := 1 } offset
            (getFileOffset { s with pos := i } + 1) with
        | err e2 idx2 =>
          rw [hadd] at hrun
          cases hrun
        | ok idx2 =>
          rw [hadd] at hrun
          have hinv2 : ScanInv { s with pos := i + 1 } :=
            ⟨h.hbuf, by simp; omega, by simp; omega, h.hread, h.hend, ⟨a, ha1, ha2, ha3⟩,
              by intro hc; simp [hd] at hc⟩
          have habs2 : getFileOffset { s with pos := i + 1 } = a + i + 1 := by
            simp only [getFileOffset]
            omega
          have hoff2 : getFileOffset { s with pos := i } + 1 ≤
              getFileOffset { s with pos := i + 1 } := by
            rw [habs1, habs2]
          obtain ⟨kA, kB, kC, kD, kE, kF, kG, kH, kI⟩ := ih hinv2 hoff2 hrun
          have htot := addSequence_total hadd
          have hone := addSequence_ok_isEmpty hadd
          have hmem := addSequence_mem hadd
          have hoffle : offset ≤ getFileOffset { s with pos := i } + 1 := by
            rw [habs1]
            omega
          refine ⟨kA, kB, kC, kD, kE, ?_, by omega, ?_, ?_⟩
          · omega
          · rcases kH with ⟨hkidx, -⟩ | hne
            · right
              rw [hkidx]
              exact ⟨hone.1, hone.2⟩
            · exact Or.inr hne
          · intro x hx
            rcases kI x hx with hxin | hs1
            · rcases hmem x hxin with hxin2 | ⟨-, hsamp⟩
              · exact Or.inl hxin2
              · exact Or.inr hsamp
            · exact Or.inr hs1
      | none =>
        rw [hm] at hrun
        have hinv1 : ScanInv { s with pos := s.block.length } :=
          ⟨h.hbuf, by simp; omega, Nat.le_refl _, h.hread, h.hend, ⟨a, ha1, ha2, ha3⟩,
            by intro hc; simp [hd] at hc⟩
        have hr := refill_at_end hinv1 rfl (by simp [hd])
        obtain ⟨hrA, hrB, hrC, hrD, hrE, hrF⟩ := hr
        have hoffr : offset ≤ getFileOffset (refillBuffer { s with pos := s.block.length }) := by
          rw [hrD]
          simp only [getFileOffset]
          omega
        obtain ⟨kA, kB, kC, kD, kE, kF, kG, kH, kI⟩ := ih hrA hoffr hrun
        exact ⟨kA, by rw [kB]; exact hrB, by rw [kC]; exact hrC, kD, kE, kF, kG, kH, kI⟩

/-- Errors escaping `BuildFromLines` are capacity errors. -/
theorem buildFromLines_err {F : Nat} {s : ScanState} {idx : Index} {e : BuildError}
    {p : ScanState × Index} (hrun : buildFromLines F s idx = .err e p) :
    e = .chunkOverflow ∨ e = .seqOverflow := by
  rw [buildFromLines] at hrun
  cases hl : linesLoop F 0 (getFileOffset s) s idx with
  | outOfFuel => rw [hl] at hrun; cases hrun
  | err e2 k =>
    rw [hl] at hrun
    cases hrun
    exact linesLoop_err hl
  | ok k =>
    rw [hl] at hrun
    simp only [] at hrun
    by_cases hlt : k.offset < k.scan.fileOffsetEnd
    · rw [if_pos hlt] at hrun
      cases hadd : k.index.addSequence { key := k.lines, numberOfSamples := 1 } k.offset
          k.scan.fileOffsetEnd with
      | ok idx3 => rw [hadd] at hrun; cases hrun
      | err e3 idx3 =>
        rw [hadd] at hrun
        cases hrun
        exact addSequence_err hadd
    · rw [if_neg hlt] at hrun
      cases hrun

/-- A successful `BuildFromLines` ends the scan with the file exhausted,
grows the chunks' total byte size by exactly the bytes between the
starting absolute offset and the final end-of-file offset, adds only
single-sample descriptors, and leaves the index untouched only if that
range is empty. -/
theorem buildFromLines_spec {F : Nat} {s : ScanState} {idx : Index} {s2 : ScanState}
    {idx2 : Index} (h : ScanInv s) (hrun : buildFromLines F s idx = .ok (s2, idx2)) :
    idx2.totalByteSize = idx.totalByteSize + (s2.fileOffsetEnd - getFileOffset s) ∧
      getFileOffset s ≤ s2.fileOffsetEnd ∧
      s2.done = true ∧ ScanInv s2 ∧ s2.file = s.file ∧ s2.bufferSize = s.bufferSize ∧
      ((idx2.isEmpty = false ∧ idx2.chunks ≠ []) ∨
        (idx2 = idx ∧ getFileOffset s = s2.fileOffsetEnd)) ∧
      (∀ x ∈ idx2.allSequences, x ∈ idx.allSequences ∨ x.numberOfSamples = 1) := by
  rw [buildFromLines] at hrun
  cases hl : linesLoop F 0 (getFileOffset s) s idx with
  | outOfFuel => rw [hl] at hrun; cases hrun
  | err e2 k => rw [hl] at hrun; cases hrun
  | ok k =>
    rw [hl] at hrun
    simp only [] at hrun
    obtain ⟨kA, kB, kC, kD, kE, kF, kG, kH, kI⟩ := linesLoop_spec h (Nat.le_refl _) hl
    by_cases hlt : k.offset < k.scan.fileOffsetEnd
    · rw [if_pos hlt] at hrun
      cases hadd : k.index.addSequence { key := k.lines, numberOfSamples := 1 } k.offset
          k.scan.fileOffsetEnd with
      | err e3 idx3 => rw [hadd] at hrun; cases hrun
      | ok idx3 =>
        rw [hadd] at hrun
        cases hrun
        have htot := addSequence_total hadd
        have hone := addSequence_ok_isEmpty hadd
        have hmem := addSequence_mem hadd
        refine ⟨by omega, by omega, kD, kA, kB, kC, Or.inl hone, ?_⟩
        intro x hx
        rcases hmem x hx with hxin | ⟨-, hs⟩
        · exact kI x hxin
        · exact Or.inr hs
    · rw [if_neg hlt] at hrun
      cases hrun
      refine ⟨by omega, by omega, kD, kA, kB, kC, ?_, kI⟩
      rcases kH with ⟨hki, hko⟩ | hne
      · exact Or.inr ⟨hki, by omega⟩
      · exact Or.inl hne

theorem lineLen_pos {l : List Nat} (h : l ≠ []) : 1 ≤ lineLen l := by
  rw [lineLen]
  cases hf : l.findIdx? (fun c => c == 10) with
  | none =>
    show 1 ≤ l.length
    exact List.length_pos.mpr h
  | some i =>
    show 1 ≤ i + 1
    omega

/-- The symbolic-key parser preserves the reader invariant, only moves
the cursor forward, and does not end the scan when it reports a key. -/
theorem tryGetSymbolicSequenceIdLoop_weak {keyToId : List Nat → Nat} :
    ∀ {F : Nat} {key : List Nat} {found0 : Bool} {s : ScanState} {found : Bool} {id : Nat}
    {s' : ScanState},
    ScanInv s → (s.done = true ∨ s.pos < s.block.length) →
    tryGetSymbolicSequenceIdLoop keyToId F key found0 s = some (found, id, s') →
    ScanInv s' ∧ s'.file = s.file ∧ s'.bufferSize = s.bufferSize ∧
      getFileOffset s ≤ getFileOffset s' ∧
      (s'.done = false → s'.pos < s'.block.length) ∧
      (found = true → s'.done = false) := by
  intro F
  induction F with
  | zero =>
    intro key found0 s found id s' _ _ hrun
    simp [tryGetSymbolicSequenceIdLoop] at hrun
  | succ fuel ih =>
    intro key found0 s found id s' h hpok hrun
    rw [tryGetSymbolicSequenceIdLoop] at hrun
    by_cases hd : s.done
    · rw [if_pos hd] at hrun
      cases hrun
      refine ⟨h, rfl, rfl, Nat.le_refl _, ?_, ?_⟩
      · intro hdf; rw [hdf] at hd; cases hd
      · intro hft; cases hft
    · rw [if_neg hd] at hrun
      simp only [Bool.not_eq_true] at hd
      have hpl : s.pos < s.block.length := by
        cases hpok with
        | inl hc => rw [hc] at hd; cases hd
        | inr hp => exact hp
      by_cases hsp : isspaceByte (s.block.getD s.pos 0)
      · rw [if_pos hsp] at hrun
        cases hrun
        exact ⟨h, rfl, rfl, Nat.le_refl _, fun _ => hpl, fun _ => hd⟩
      · rw [if_neg hsp] at hrun
        obtain ⟨hA1, hB1, hC1, hD1, hE1, hF1⟩ := arrive_inv h hd hpl (Nat.le_succ _)
        have hpok2 : (arriveAt s (s.pos + 1)).done = true ∨
            (arriveAt s (s.pos + 1)).pos < (arriveAt s (s.pos + 1)).block.length := by
          by_cases hd2 : (arriveAt s (s.pos + 1)).done
          · exact Or.inl hd2
          · exact Or.inr (hE1 (by simpa using hd2))
        obtain ⟨iA, iB, iC, iD, iE, iF⟩ := ih hA1 hpok2 hrun
        refine ⟨iA, by rw [iB, hB1], by rw [iC, hC1], by omega, iE, iF⟩

/-- The key parser selected by the corpus preserves the reader invariant,
only moves the cursor forward, and does not end the scan when it reports
a key. -/
theorem tryGetSequenceId_weak {co : Corpus} {F : Nat} {s : ScanState} {found : Bool} {id : Nat}
    {s' : ScanState} (h : ScanInv s) (hpok : s.done = true ∨ s.pos < s.block.length)
    (hrun : tryGetSequenceId co F s = some (found, id, s')) :
    ScanInv s' ∧ s'.file = s.file ∧ s'.bufferSize = s.bufferSize ∧
      getFileOffset s ≤ getFileOffset s' ∧
      (s'.done = false → s'.pos < s'.block.length) ∧
      (found = true → s'.done = false) := by
  rw [tryGetSequenceId] at hrun
  by_cases hn : co.numeric
  · rw [if_pos hn] at hrun
    obtain ⟨iA, iB, iC, iD, iE, iF, iG, iH, iI⟩ := tryGetNumericSequenceIdLoop_spec h hpok hrun
    refine ⟨iA, iB, iC, by omega, iF, ?_⟩
    intro hft
    cases hdn : s'.done with
    | false => rfl
    | true =>
      obtain ⟨hne, hcond⟩ := iH.mp hft
      rw [iE.mp hdn] at hcond
      have hle := digitPref_length_le (restOf s)
      by_cases hdig : isdigitByte ((restOf s).headD 0) = true
      · rw [if_pos hdig] at hcond
        omega
      · rw [if_neg hdig] at hcond
        -- with no leading digit the prefix is empty, but its length equals the
        -- non-empty stream length: contradiction
        cases hx : restOf s with
        | nil => exact absurd hx hne
        | cons y ys =>
          rw [hx] at hdig
          simp only [List.headD_cons] at hdig
          have : digitPref (y :: ys) = [] := by
            rw [digitPref, List.takeWhile_cons, if_neg (by simpa using hdig)]
          rw [iE.mp hdn, hx, this] at *
          simp at hcond
  · rw [if_neg hn] at hrun
    exact tryGetSymbolicSequenceIdLoop_weak h hpok hrun

/-- Invariant of the keyed scanning loop: it runs to the end of the
input, `sequenceOffset` only moves forward and never passes the current
absolute offset, and the chunks' total byte size grows by exactly the
distance `sequenceOffset` travelled. -/
theorem keyedLoop_total {co : Corpus} {F : Nat} :
    ∀ {fuel seqOff prevId samples : Nat} {s : ScanState} {idx : Index} {k : KeyedSt},
    ScanInv s → (s.done = true ∨ s.pos < s.block.length) →
    seqOff ≤ getFileOffset s →
    keyedLoop co F fuel seqOff prevId samples s idx = .ok k →
    ScanInv k.scan ∧ k.scan.file = s.file ∧ k.scan.bufferSize = s.bufferSize ∧
      k.scan.done = true ∧
      seqOff ≤ k.sequenceOffset ∧
      k.sequenceOffset ≤ getFileOffset k.scan ∧
      k.index.totalByteSize + seqOff = idx.totalByteSize + k.sequenceOffset := by
  intro fuel
  induction fuel with
  | zero => intro seqOff prevId samples s idx k _ _ _ hrun; simp [keyedLoop] at hrun
  | succ fuel ih =>
    intro seqOff prevId samples s idx k h hpok hseq hrun
    rw [keyedLoop] at hrun
    by_cases hd : s.done
    · rw [if_pos hd] at hrun
      cases hrun
      exact ⟨h, rfl, rfl, hd, Nat.le_refl _, hseq, rfl⟩
    · rw [if_neg hd] at hrun
      simp only [Bool.not_eq_true] at hd
      cases hsk : skipLine F s with
      | none => rw [hsk] at hrun; cases hrun
      | some s1 =>
        rw [hsk] at hrun
        simp only [] at hrun
        obtain ⟨sA, sB, sC, sD, sE, sF⟩ := skipLine_spec h hsk
        have habs1 : getFileOffset s ≤ getFileOffset s1 := by omega
        by_cases hd1 : s1.done = true
        · rw [if_pos hd1] at hrun
          obtain ⟨kA, kB, kC, kD, kE, kF, kG⟩ := ih sA (Or.inl hd1) (by omega) hrun
          exact ⟨kA, by rw [kB, sB], by rw [kC, sC], kD, kE, kF, kG⟩
        · rw [if_neg hd1] at hrun
          simp only [Bool.not_eq_true] at hd1
          cases htg : tryGetSequenceId co F s1 with
          | none => rw [htg] at hrun; cases hrun
          | some r =>
            obtain ⟨found, id, s2⟩ := r
            rw [htg] at hrun
            simp only [] at hrun
            obtain ⟨tA, tB, tC, tD, tE, tF⟩ :=
              tryGetSequenceId_weak sA (Or.inr (sE (by simp [hd1]))) htg
            by_cases hem : found = true ∧ id ≠ prevId
            · rw [if_pos hem] at hrun
              cases hadd : idx.addSequence ⟨prevId, (samples + 1) % UINT32_LIMIT, 0, 0⟩
                  seqOff (getFileOffset s1) with
              | err e2 idx2 => rw [hadd] at hrun; cases hrun
              | ok idx2 =>
                rw [hadd] at hrun
                obtain ⟨kA, kB, kC, kD, kE, kF, kG⟩ := ih tA
                  (by by_cases hd2 : s2.done
                      · exact Or.inl hd2
                      · exact Or.inr (tE (by simpa using hd2))) (by omega) hrun
                have htot := addSequence_total hadd
                refine ⟨kA, by rw [kB, tB, sB], by rw [kC, tC, sC], kD, by omega, kF, ?_⟩
                omega
            · rw [if_neg hem] at hrun
              obtain ⟨kA, kB, kC, kD, kE, kF, kG⟩ := ih tA
                (by by_cases hd2 : s2.done
                    · exact Or.inl hd2
                    · exact Or.inr (tE (by simpa using hd2))) (by omega) hrun
              exact ⟨kA, by rw [kB, tB, sB], by rw [kC, tC, sC], kD, kE, kF, kG⟩

/-- Sample accounting of the keyed scanning loop, for files shorter than
`2^32 - 1` bytes: the `uint32_t` sample counter never wraps (each counted
sample consumes at least one input byte), so the open sequence holds at
least one sample when the loop ends, and every descriptor the loop emits
has at least one sample. -/
theorem keyedLoop_samples {co : Corpus} {F : Nat} :
    ∀ {fuel seqOff prevId samples : Nat} {s : ScanState} {idx : Index} {k : KeyedSt},
    ScanInv s → (s.done = true ∨ s.pos < s.block.length) →
    seqOff ≤ getFileOffset s →
    s.file.length + 1 < UINT32_LIMIT →
    (s.done = false → samples ≤ getFileOffset s - seqOff) →
    (s.done = true → samples ≤ getFileOffset s - seqOff + 1 ∧ 1 ≤ samples) →
    keyedLoop co F fuel seqOff prevId samples s idx = .ok k →
    1 ≤ k.numberOfSamples ∧
      (∀ x ∈ k.index.allSequences, x ∈ idx.allSequences ∨ 1 ≤ x.numberOfSamples) := by
  intro fuel
  induction fuel with
  | zero => intro seqOff prevId samples s idx k _ _ _ _ _ _ hrun; simp [keyedLoop] at hrun
  | succ fuel ih =>
    intro seqOff prevId samples s idx k h hpok hseq hsmall hsf hst hrun
    have habsle : getFileOffset s ≤ s.file.length := by
      have h1 := h.abs_le_readPos
      have h2 := h.hread
      omega
    rw [keyedLoop] at hrun
    by_cases hd : s.done
    · rw [if_pos hd] at hrun
      cases hrun
      exact ⟨(hst hd).2, fun x hx => Or.inl hx⟩
    · rw [if_neg hd] at hrun
      simp only [Bool.not_eq_true] at hd
      have hsfd := hsf hd
      cases hsk : skipLine F s with
      | none => rw [hsk] at hrun; cases hrun
      | some s1 =>
        rw [hsk] at hrun
        simp only [] at hrun
        obtain ⟨sA, sB, sC, sD, sE, sF⟩ := skipLine_spec h hsk
        have habs1 : getFileOffset s ≤ getFileOffset s1 := by omega
        have hmod : (samples + 1) % UINT32_LIMIT = samples + 1 := by
          apply Nat.mod_eq_of_lt
          omega
        rw [hmod] at hrun
        by_cases hd1 : s1.done = true
        · rw [if_pos hd1] at hrun
          refine (ih sA (Or.inl hd1) (by omega) (by rw [sB]; exact hsmall) ?_ ?_ hrun)
          · intro hc; rw [hc] at hd1; cases hd1
          · intro _
            exact ⟨by omega, by omega⟩
        · rw [if_neg hd1] at hrun
          simp only [Bool.not_eq_true] at hd1
          -- the skipped line was not the end of the input, so it consumed a byte
          have hll : 1 ≤ lineLen (restOf s) := by
            by_cases hre : restOf s = []
            · exfalso
              have hlen0 : lineLen (restOf s) = (restOf s).length := by
                rw [hre]
                simp [lineLen]
              have hcon := sF.mpr hlen0
              rw [hd1] at hcon
              cases hcon
            · exact lineLen_pos hre
          cases htg : tryGetSequenceId co F s1 with
          | none => rw [htg] at hrun; cases hrun
          | some r =>
            obtain ⟨found, id, s2⟩ := r
            rw [htg] at hrun
            simp only [] at hrun
            obtain ⟨tA, tB, tC, tD, tE, tF⟩ :=
              tryGetSequenceId_weak sA (Or.inr (sE (by simp [hd1]))) htg
            by_cases hem : found = true ∧ id ≠ prevId
            · rw [if_pos hem] at hrun
              cases hadd : idx.addSequence ⟨prevId, samples + 1, 0, 0⟩
                  seqOff (getFileOffset s1) with
              | err e2 idx2 => rw [hadd] at hrun; cases hrun
              | ok idx2 =>
                rw [hadd] at hrun
                have hd2 : s2.done = false := tF hem.1
                obtain ⟨kS, kM⟩ := ih tA (Or.inr (tE hd2)) (by omega)
                  (by rw [tB, sB]; exact hsmall) (by intro _; omega)
                  (by intro hc; rw [hc] at hd2; cases hd2) hrun
                have hmem := addSequence_mem hadd
                refine ⟨kS, ?_⟩
                intro x hx
                rcases kM x hx with hxin | hs1
                · rcases hmem x hxin with hxin2 | ⟨-, hsamp⟩
                  · exact Or.inl hxin2
                  · right
                    rw [hsamp]
                    show 1 ≤ samples + 1
                    omega
                · exact Or.inr hs1
            · rw [if_neg hem] at hrun
              refine ih tA ?_ (by omega) (by rw [tB, sB]; exact hsmall) ?_ ?_ hrun
              · by_cases hd2 : s2.done
                · exact Or.inl hd2
                · exact Or.inr (tE (by simpa using hd2))
              · intro _
                omega
              · intro _
                exact ⟨by omega, by omega⟩

/-! ### `Build` assembly lemmas -/

/-- The first refill on a fresh indexer: end of input when the first
block is empty, otherwise the first `min bufferSize file.length` bytes. -/
theorem refill_init (file : List Nat) (primary skipIds : Bool) (pref chunkSize bufferSize : Nat)
    (trackFS : Bool) :
    refillBuffer (Indexer.init file primary skipIds pref chunkSize bufferSize trackFS).scan =
      if min bufferSize file.length = 0 then
        { (Indexer.init file primary skipIds pref chunkSize bufferSize trackFS).scan with
          done := true }
      else firstBlockState file bufferSize := by
  rw [refillBuffer]
  simp [Indexer.init, firstBlockState]

/-- The reader invariant holds after a non-empty first refill. -/
theorem scanInv_first_block {file : List Nat} {bufferSize : Nat}
    (hm : min bufferSize file.length ≠ 0) :
    ScanInv (firstBlockState file bufferSize) := by
  have hlen : (file.take (min bufferSize file.length)).length = min bufferSize file.length := by
    simp [List.length_take]
  have hb : 0 < bufferSize := by
    rcases Nat.eq_zero_or_pos bufferSize with h | h
    · exact absurd (by simp [h]) hm
    · exact h
  refine ⟨hb, Nat.le_refl _, Nat.zero_le _, min_le_right _ _, rfl, ⟨0, ?_, ?_, rfl⟩,
    by simp [firstBlockState]⟩
  · show 0 + (file.take (min bufferSize file.length)).length = min bufferSize file.length
    simpa using hlen
  · show file.take (min bufferSize file.length) =
      (file.drop 0).take (file.take (min bufferSize file.length)).length
    rw [hlen]
    simp

theorem take3_bytes {file : List Nat} (h3 : 3 ≤ file.length) :
    (file.take 3 = [239, 187, 191]) ↔
      (file.getD 0 0 = 239 ∧ file.getD 1 0 = 187 ∧ file.getD 2 0 = 191) := by
  rcases file with - | ⟨a, - | ⟨b, - | ⟨c, rest⟩⟩⟩ <;> simp_all [List.getD]

/-- The BOM test-and-skip on the first block: the invariant is kept, the
cursor stays strictly inside the block, and the absolute offset becomes 3
exactly when the skip fires, which happens exactly when `bomSkipped`. -/
theorem bomSkip_first_block {file : List Nat} {bufferSize : Nat}
    (hm : min bufferSize file.length ≠ 0) :
    ScanInv (bomSkip (firstBlockState file bufferSize)) ∧
      (bomSkip (firstBlockState file bufferSize)).done = false ∧
      (bomSkip (firstBlockState file bufferSize)).file = file ∧
      (bomSkip (firstBlockState file bufferSize)).bufferSize = bufferSize ∧
      (bomSkip (firstBlockState file bufferSize)).block = (firstBlockState file bufferSize).block ∧
      (bomSkip (firstBlockState file bufferSize)).fileOffsetEnd =
        (firstBlockState file bufferSize).fileOffsetEnd ∧
      (bomSkip (firstBlockState file bufferSize)).pos <
        (bomSkip (firstBlockState file bufferSize)).block.length ∧
      (bomSkip (firstBlockState file bufferSize)).startIdx =
        (bomSkip (firstBlockState file bufferSize)).pos ∧
      getFileOffset (bomSkip (firstBlockState file bufferSize)) =
        (if bomSkipped file bufferSize then 3 else 0) := by
  have hlen : (firstBlockState file bufferSize).block.length = min bufferSize file.length := by
    simp [firstBlockState, List.length_take]
  have hinv0 : ScanInv (firstBlockState file bufferSize) := scanInv_first_block hm
  have hbyte : ∀ i, i < min bufferSize file.length →
      (firstBlockState file bufferSize).block.getD i 0 = file.getD i 0 := by
    intro i hi
    show (file.take (min bufferSize file.length)).getD i 0 = file.getD i 0
    rw [List.getD_eq_getElem?_getD, List.getD_eq_getElem?_getD, List.getElem?_take]
    rw [if_pos hi]
  have hcond : (3 < (firstBlockState file bufferSize).block.length -
        (firstBlockState file bufferSize).startIdx ∧
      (firstBlockState file bufferSize).block.getD (firstBlockState file bufferSize).startIdx 0
        = 239 ∧
      (firstBlockState file bufferSize).block.getD
        ((firstBlockState file bufferSize).startIdx + 1) 0 = 187 ∧
      (firstBlockState file bufferSize).block.getD
        ((firstBlockState file bufferSize).startIdx + 2) 0 = 191) ↔
      bomSkipped file bufferSize = true := by
    show (3 < (firstBlockState file bufferSize).block.length - 0 ∧
      (firstBlockState file bufferSize).block.getD 0 0 = 239 ∧
      (firstBlockState file bufferSize).block.getD 1 0 = 187 ∧
      (firstBlockState file bufferSize).block.getD 2 0 = 191) ↔ _
    rw [bomSkipped]
    simp only [Bool.and_eq_true, decide_eq_true_eq]
    constructor
    · rintro ⟨h1, h2, h3, h4⟩
      rw [hlen] at h1
      have hfl : 3 ≤ file.length := by omega
      refine ⟨h1, (take3_bytes hfl).mpr ?_⟩
      rw [hbyte 0 (by omega)] at h2
      rw [hbyte 1 (by omega)] at h3
      rw [hbyte 2 (by omega)] at h4
      exact ⟨h2, h3, h4⟩
    · rintro ⟨h1, h2⟩
      have hfl : 3 ≤ file.length := by omega
      obtain ⟨h2a, h2b, h2c⟩ := (take3_bytes hfl).mp h2
      rw [hlen]
      refine ⟨h1, ?_, ?_, ?_⟩
      · rw [hbyte 0 (by omega)]; exact h2a
      · rw [hbyte 1 (by omega)]; exact h2b
      · rw [hbyte 2 (by omega)]; exact h2c
  rw [bomSkip]
  by_cases hb : bomSkipped file bufferSize = true
  · rw [if_pos (hcond.mpr hb)]
    have h3m : 3 < min bufferSize file.length := by
      rw [bomSkipped] at hb
      simp only [Bool.and_eq_true, decide_eq_true_eq] at hb
      exact hb.1
    refine ⟨?_, rfl, rfl, rfl, rfl, rfl, ?_, rfl, ?_⟩
    · refine ⟨?_, Nat.le_refl _, ?_, min_le_right _ _, rfl, ⟨0, ?_, ?_, ?_⟩,
        by simp [firstBlockState]⟩
      · show 0 < bufferSize
        omega
      · show 0 + 3 ≤ (file.take (min bufferSize file.length)).length
        simp [List.length_take]
        omega
      · show 0 + (file.take (min bufferSize file.length)).length = min bufferSize file.length
        simp [List.length_take]
      · show file.take (min bufferSize file.length) =
          (file.drop 0).take (file.take (min bufferSize file.length)).length
        simp [List.length_take]
      · show (0 : Nat) + 3 = 0 + (0 + 3)
        omega
    · show 0 + 3 < (file.take (min bufferSize file.length)).length
      simp [List.length_take]
      omega
    · show (0 : Nat) + 3 + (0 + 3 - (0 + 3)) = if bomSkipped file bufferSize then 3 else 0
      rw [if_pos hb]
  · rw [if_neg (fun hc => hb (hcond.mp hc))]
    refine ⟨hinv0, rfl, rfl, rfl, rfl, rfl, ?_, rfl, ?_⟩
    · show 0 < (file.take (min bufferSize file.length)).length
      simp [List.length_take]
      omega
    · show (0 : Nat) + (0 - 0) = if bomSkipped file bufferSize then 3 else 0
      rw [if_neg hb]

/-- `Build` on a fresh indexer, when it succeeds: the chunks' byte sizes
sum to the file length minus a skipped BOM, the index ends non-empty, and
for files shorter than `2^32 - 1` bytes every emitted descriptor holds at
least one sample. -/
theorem build_init_ok_spec {file : List Nat} {primary skipIds trackFS : Bool}
    {pref chunkSize bufferSize F : Nat} {co : Corpus} {st : IndexerState}
    (hrun : Indexer.build (Indexer.init file primary skipIds pref chunkSize bufferSize trackFS)
      co F = .ok st) :
    st.index.totalByteSize = file.length - (if bomSkipped file bufferSize then 3 else 0) ∧
      st.index.isEmpty = false ∧
      (file.length + 1 < UINT32_LIMIT → ∀ x ∈ st.index.allSequences, 1 ≤ x.numberOfSamples) := by
  have hinit0 :
      (Indexer.init file primary skipIds pref chunkSize bufferSize trackFS).index.totalByteSize
        = 0 := rfl
  have hinitseq :
      (Indexer.init file primary skipIds pref chunkSize bufferSize trackFS).index.allSequences
        = [] := rfl
  rw [Indexer.build] at hrun
  rw [if_neg (by simp [Indexer.init, Index.init, Index.isEmpty])] at hrun
  simp only [] at hrun
  rw [refill_init] at hrun
  by_cases hm : min bufferSize file.length = 0
  · rw [if_pos hm] at hrun
    rw [if_pos rfl] at hrun
    cases hrun
  · rw [if_neg hm] at hrun
    rw [if_neg (by simp [firstBlockState])] at hrun
    obtain ⟨bA, bB, bC, bD, bE, bF, bG, bH, bI⟩ := bomSkip_first_block hm
    have hBlt : (if bomSkipped file bufferSize then 3 else 0) < file.length := by
      by_cases hb : bomSkipped file bufferSize = true
      · rw [if_pos hb]
        rw [bomSkipped] at hb
        simp only [Bool.and_eq_true, decide_eq_true_eq] at hb
        have := hb.1
        omega
      · rw [if_neg hb]
        omega
    by_cases hmode :
        (Indexer.init file primary skipIds pref chunkSize bufferSize trackFS).hasSequenceIds
          = false ∨
        (bomSkip (firstBlockState file bufferSize)).block.getD
          (bomSkip (firstBlockState file bufferSize)).startIdx 0
          = (Indexer.init file primary skipIds pref chunkSize bufferSize trackFS).streamPref
    · rw [if_pos hmode] at hrun
      by_cases hnum : co.numeric = false
      · rw [if_pos hnum] at hrun
        cases hrun
      · rw [if_neg hnum] at hrun
        cases hbl : buildFromLines F (bomSkip (firstBlockState file bufferSize))
            (Indexer.init file primary skipIds pref chunkSize bufferSize trackFS).index with
        | outOfFuel => rw [hbl] at hrun; cases hrun
        | err e p => rw [hbl] at hrun; cases hrun
        | ok p =>
          obtain ⟨s2, idx2⟩ := p
          rw [hbl] at hrun
          simp only [] at hrun
          cases hrun
          obtain ⟨fA, fB, fC, fD, fE, fF, fG, fH⟩ := buildFromLines_spec bA hbl
          have hend2 : s2.fileOffsetEnd = file.length := by
            rw [fD.hend, (fD.hdone fC).2, fE, bC]
          refine ⟨?_, ?_, ?_⟩
          · show idx2.totalByteSize = _
            rw [fA, hinit0, bI, hend2]
            omega
          · show idx2.isEmpty = false
            rcases fG with ⟨hne, -⟩ | ⟨-, heq⟩
            · exact hne
            · exfalso
              rw [bI, hend2] at heq
              omega
          · intro _ x hx
            rcases fH x hx with hxin | hone
            · rw [hinitseq] at hxin
              cases hxin
            · omega
    · rw [if_neg hmode] at hrun
      cases htg : tryGetSequenceId co F (bomSkip (firstBlockState file bufferSize)) with
      | none => rw [htg] at hrun; cases hrun
      | some r =>
        obtain ⟨found, id, s2⟩ := r
        rw [htg] at hrun
        simp only [] at hrun
        by_cases hf : found = false
        · rw [if_pos hf] at hrun
          cases hrun
        · rw [if_neg hf] at hrun
          have hft : found = true := by
            cases found
            · exact absurd rfl hf
            · rfl
          obtain ⟨tA, tB, tC, tD, tE, tF⟩ := tryGetSequenceId_weak bA (Or.inr bG) htg
          have hd2 : s2.done = false := tF hft
          cases hkl : keyedLoop co F F (getFileOffset (bomSkip (firstBlockState file bufferSize)))
              id 0 s2
              (Indexer.init file primary skipIds pref chunkSize bufferSize trackFS).index with
          | outOfFuel => rw [hkl] at hrun; cases hrun
          | err e k => rw [hkl] at hrun; cases hrun
          | ok k =>
            rw [hkl] at hrun
            simp only [] at hrun
            obtain ⟨kA, kB, kC, kD, kE, kF, kG⟩ := keyedLoop_total tA (Or.inr (tE hd2)) tD hkl
            cases hadd : k.index.addSequence
                { key := k.previousId, numberOfSamples := k.numberOfSamples }
                k.sequenceOffset k.scan.fileOffsetEnd with
            | err e idx2 => rw [hadd] at hrun; cases hrun
            | ok idx2 =>
              rw [hadd] at hrun
              cases hrun
              have hkend : k.scan.fileOffsetEnd = file.length := by
                rw [kA.hend, (kA.hdone kD).2, kB, tB, bC]
              have hkabs : getFileOffset k.scan ≤ k.scan.fileOffsetEnd := by
                have h1 := kA.abs_le_readPos
                rw [kA.hend]
                exact h1
              have htot := addSequence_total hadd
              refine ⟨?_, ?_, ?_⟩
              · show idx2.totalByteSize = _
                rw [hinit0] at kG
                rw [bI] at kE kG
                rw [hkend] at htot hkabs
                omega
              · show idx2.isEmpty = false
                exact (addSequence_ok_isEmpty hadd).1
              · intro hsmall x hx
                have hsmall2 : s2.file.length + 1 < UINT32_LIMIT := by
                  rw [tB, bC]
                  exact hsmall
                obtain ⟨kS, kM⟩ := keyedLoop_samples tA (Or.inr (tE hd2)) tD hsmall2
                  (fun _ => Nat.zero_le _)
                  (fun hc => absurd hc (by rw [hd2]; exact fun h => Bool.noConfusion h)) hkl
                rcases addSequence_mem hadd x hx with hxin | ⟨-, hs⟩
                · rcases kM x hxin with hxin2 | hone
                  · rw [hinitseq] at hxin2
                    cases hxin2
                  · exact hone
                · rw [hs]
                  exact kS

/-! ### Chunk-budget lemmas -/

/-- A successful `AddSequence` grows the chunk list by one exactly when
the current chunk has positive byte size and the incoming sequence would
push it past the budget; otherwise the chunk count is unchanged. -/
theorem addSequence_new_chunk_iff {idx : Index} {sd : SequenceDescriptor} {a b : Nat}
    {idx2 : Index} (hne : idx.chunks ≠ [])
    (hok : Index.addSequence idx sd a b = .ok idx2) :
    idx2.chunks.length = idx.chunks.length + 1 ↔
      (0 < (idx.chunks.getLastD {}).byteSize ∧
        idx.maxChunkSize < (idx.chunks.getLastD {}).byteSize + (b - a)) := by
  rw [addSequence_ok_eq hok]
  have hlen : 1 ≤ idx.chunks.length := List.length_pos.mpr hne
  by_cases htr : idx.trackFirstSamples = true <;>
  by_cases hpr : idx.primary = false <;>
  by_cases hnew : 0 < (idx.chunks.getLastD {}).byteSize ∧
      idx.maxChunkSize < (idx.chunks.getLastD {}).byteSize + (b - a) <;>
  simp only [addSequenceOk, htr, hpr, hnew, and_self, decide_True, decide_False,
    Bool.false_eq_true, Bool.true_eq_false, eq_self_iff_true, if_true, if_false,
    List.length_append, List.length_cons, List.length_nil, List.length_dropLast] <;>
  first
    | exact ⟨fun _ => trivial, fun _ => by omega⟩
    | exact iff_of_false (by omega) not_false

/-- A successful `AddSequence` of a positive-size sequence preserves the
budget invariant: every chunk fits the budget or holds exactly one
sequence, and a zero-byte chunk holds no sequence; the budget itself is
unchanged. -/
theorem addSequence_budget_step {idx : Index} {sd : SequenceDescriptor} {a b : Nat} {idx2 : Index}
    (hsize : a < b) (hok : Index.addSequence idx sd a b = .ok idx2)
    (hinv : ∀ c ∈ idx.chunks, (c.byteSize ≤ idx.maxChunkSize ∨ c.numberOfSequences = 1) ∧
      (c.byteSize = 0 → c.numberOfSequences = 0)) :
    idx2.maxChunkSize = idx.maxChunkSize ∧
    ∀ c ∈ idx2.chunks, (c.byteSize ≤ idx.maxChunkSize ∨ c.numberOfSequences = 1) ∧
      (c.byteSize = 0 → c.numberOfSequences = 0) := by
  rw [addSequence_ok_eq hok]
  by_cases htr : idx.trackFirstSamples = true <;>
  by_cases hpr : idx.primary = false <;>
  by_cases hnew : 0 < (idx.chunks.getLastD {}).byteSize ∧
      idx.maxChunkSize < (idx.chunks.getLastD {}).byteSize + (b - a) <;>
  simp only [addSequenceOk, htr, hpr, hnew, and_self, decide_True, decide_False,
    Bool.false_eq_true, Bool.true_eq_false, eq_self_iff_true, if_true, if_false] <;>
  refine ⟨by first | rfl | trivial, ?_⟩ <;>
  intro c hc <;>
  rw [List.mem_append, List.mem_singleton] at hc <;>
  first
    | (rcases hc with hold | hnewc
       · exact hinv c hold
       · subst hnewc
         refine ⟨Or.inr rfl, ?_⟩
         intro hz
         exfalso
         have hz2 : 0 + (b - a) = 0 := hz
         omega)
    | (rcases hc with hold | hnewc
       · exact hinv c (List.Sublist.mem hold (List.dropLast_sublist _))
       · subst hnewc
         have hn2 : (idx.chunks.getLastD {}).byteSize = 0 ∨
             (idx.chunks.getLastD {}).byteSize + (b - a) ≤ idx.maxChunkSize := by
           rcases Nat.eq_zero_or_pos (idx.chunks.getLastD {}).byteSize with h0 | hp
           · exact Or.inl h0
           · right
             by_contra hgt
             exact hnew ⟨hp, by omega⟩
         constructor
         · rcases hn2 with h0 | hle
           · right
             have hseq0 : (idx.chunks.getLastD {}).numberOfSequences = 0 := by
               by_cases hnil : idx.chunks = []
               · rw [hnil]
                 rfl
               · exact (hinv _ (getLastD_mem hnil)).2 h0
             show (idx.chunks.getLastD {}).numberOfSequences + 1 = 1
             omega
           · left
             show (idx.chunks.getLastD {}).byteSize + (b - a) ≤ idx.maxChunkSize
             exact hle
         · intro hz
           exfalso
           have hz2 : (idx.chunks.getLastD {}).byteSize + (b - a) = 0 := hz
           omega)

/-- The budget invariant carried over any list of positive-size
`AddSequence` calls. -/
theorem addMany_budget {chunkSize : Nat} :
    ∀ {calls : List (SequenceDescriptor × Nat × Nat)} {idx idx2 : Index},
    idx.maxChunkSize = chunkSize →
    (∀ e ∈ calls, e.2.1 < e.2.2) →
    (∀ c ∈ idx.chunks, (c.byteSize ≤ chunkSize ∨ c.numberOfSequences = 1) ∧
      (c.byteSize = 0 → c.numberOfSequences = 0)) →
    addMany idx calls = .ok idx2 →
    ∀ c ∈ idx2.chunks, (c.byteSize ≤ chunkSize ∨ c.numberOfSequences = 1) ∧
      (c.byteSize = 0 → c.numberOfSequences = 0) := by
  intro calls
  induction calls with
  | nil =>
    intro idx idx2 hmax hpos hinv hrun
    rw [addMany] at hrun
    cases hrun
    exact hinv
  | cons e rest ih =>
    intro idx idx2 hmax hpos hinv hrun
    obtain ⟨sd, a, b⟩ := e
    rw [addMany] at hrun
    cases hadd : idx.addSequence sd a b with
    | err e2 i2 => rw [hadd] at hrun; cases hrun
    | ok imid =>
      rw [hadd] at hrun
      simp only [] at hrun
      have hsize : a < b := hpos (sd, a, b) (by simp)
      have hstep := addSequence_budget_step hsize hadd (by rw [hmax]; exact hinv)
      refine ih ?_ (fun e2 he2 => hpos e2 (List.mem_cons_of_mem _ he2)) ?_ hrun
      · rw [hstep.1, hmax]
      · rw [← hmax]
        exact hstep.2

/-! ### BOM-shift lemmas -/

theorem take_getD {l : List Nat} {m i : Nat} (hi : i < m) :
    (l.take m).getD i 0 = l.getD i 0 := by
  rw [List.getD_eq_getElem?_getD, List.getD_eq_getElem?_getD, List.getElem?_take, if_pos hi]

/-- Under the reader invariant, with the cursor parked correctly, the scan
is finished exactly when the remaining stream is empty. -/
theorem done_iff_rest_nil {s : ScanState} (h : ScanInv s)
    (hpok : s.done = true ∨ s.pos < s.block.length) :
    (s.done = true ↔ restOf s = []) := by
  constructor
  · exact h.rest_done
  · intro hr
    by_contra hd
    simp only [Bool.not_eq_true] at hd
    have hp : s.pos < s.block.length := by
      cases hpok with
      | inl hc => rw [hc] at hd; cases hd
      | inr hp => exact hp
    rw [h.rest_cons hp] at hr
    cases hr

/-- The streams of a plain-file reader and a BOM-prefixed-file reader
agree when their absolute offsets differ by the BOM length. -/
theorem rest_bom {sP sB : ScanState} (hfile : sB.file = bomBytes ++ sP.file)
    (habs : getFileOffset sB = getFileOffset sP + 3) :
    restOf sB = restOf sP := by
  have h3 : (bomBytes ++ sP.file).drop 3 = sP.file := List.drop_left bomBytes sP.file
  have habs2 : getFileOffset sB = 3 + getFileOffset sP := by omega
  rw [restOf, restOf, hfile, habs2, ← List.drop_drop, h3]

theorem forall2_getLast {α β : Type} {R : α → β → Prop} {l1 : List α} {l2 : List β}
    (h : List.Forall₂ R l1 l2) :
    (l1 = [] ∧ l2 = []) ∨ ∃ x y, l1.getLast? = some x ∧ l2.getLast? = some y ∧ R x y := by
  induction h with
  | nil => exact Or.inl ⟨rfl, rfl⟩
  | @cons a b as bs hr htail ih =>
    right
    rcases ih with ⟨h1, h2⟩ | ⟨x, y, hx, hy, hxy⟩
    · subst h1
      subst h2
      exact ⟨a, b, rfl, rfl, hr⟩
    · refine ⟨x, y, ?_, ?_, hxy⟩
      · cases as with
        | nil => rw [List.getLast?_nil] at hx; cases hx
        | cons a2 as2 => rw [List.getLast?_cons_cons]; exact hx
      · cases bs with
        | nil => rw [List.getLast?_nil] at hy; cases hy
        | cons b2 bs2 => rw [List.getLast?_cons_cons]; exact hy

theorem chunkRel_getLastD {l1 l2 : List ChunkDescriptor} (h : List.Forall₂ ChunkRel l1 l2)
    (hne : l1 ≠ []) : ChunkRel (l1.getLastD {}) (l2.getLastD {}) := by
  rcases forall2_getLast h with ⟨h1, -⟩ | ⟨x, y, hx, hy, hxy⟩
  · exact absurd h1 hne
  · rw [List.getLastD_eq_getLast?, hx, List.getLastD_eq_getLast?, hy]
    exact hxy

theorem forall2_dropLast {α β : Type} {R : α → β → Prop} :
    ∀ {l1 : List α} {l2 : List β}, List.Forall₂ R l1 l2 →
    List.Forall₂ R l1.dropLast l2.dropLast := by
  intro l1
  induction l1 with
  | nil =>
    intro l2 h
    cases h
    exact List.Forall₂.nil
  | cons a as ih =>
    intro l2 h
    cases h with
    | cons hr htail =>
      rename_i b bs
      cases as with
      | nil =>
        cases htail
        exact List.Forall₂.nil
      | cons a2 as2 =>
        cases bs with
        | nil => cases htail
        | cons b2 bs2 =>
          rw [List.dropLast_cons₂, List.dropLast_cons₂]
          exact List.Forall₂.cons hr (ih htail)

theorem getLastD_snoc {α : Type} (l : List α) (x d : α) : (l ++ [x]).getLastD d = x := by
  rw [List.getLastD_eq_getLast?, List.getLast?_concat]
  rfl

/-- Normal form of a successful `AddSequence` that opens a new chunk. -/
theorem addSequenceOk_eq_new {idx : Index} {sd0 : SequenceDescriptor} {a b : Nat}
    (hnew : 0 < (idx.chunks.getLastD {}).byteSize ∧
      idx.maxChunkSize < (idx.chunks.getLastD {}).byteSize + (b - a)) :
    addSequenceOk idx sd0 a b =
      { chunks := idx.chunks ++ [{
          id := idx.chunks.length % UINT32_LIMIT, offset := a, byteSize := b - a,
          numberOfSequences := 1, numberOfSamples := sd0.numberOfSamples,
          sequences := [{ key := sd0.key, numberOfSamples := sd0.numberOfSamples,
                          byteSize := b - a, offsetInChunk := 0 }],
          sequenceOffsetInChunkInSamples := if idx.trackFirstSamples then [0] else [] }]
        keyToSequenceInChunk := if idx.primary = false then
            insertKeyLoc idx.keyToSequenceInChunk sd0.key (idx.chunks.length % UINT32_LIMIT, 0)
          else idx.keyToSequenceInChunk
        maxChunkSize := idx.maxChunkSize
        primary := idx.primary
        trackFirstSamples := idx.trackFirstSamples } := by
  simp only [List.getLastD_eq_getLast?] at hnew
  by_cases htr : idx.trackFirstSamples = true <;>
  by_cases hpr : idx.primary = false <;>
  simp [addSequenceOk, htr, hpr, hnew, and_self]

/-- Normal form of a successful `AddSequence` that extends the current
chunk. -/
theorem addSequenceOk_eq_ext {idx : Index} {sd0 : SequenceDescriptor} {a b : Nat}
    (hnew : ¬(0 < (idx.chunks.getLastD {}).byteSize ∧
      idx.maxChunkSize < (idx.chunks.getLastD {}).byteSize + (b - a))) :
    addSequenceOk idx sd0 a b =
      { chunks := idx.chunks.dropLast ++ [{
          id := (idx.chunks.getLastD {}).id, offset := (idx.chunks.getLastD {}).offset,
          byteSize := (idx.chunks.getLastD {}).byteSize + (b - a),
          numberOfSequences := (idx.chunks.getLastD {}).numberOfSequences + 1,
          numberOfSamples := (idx.chunks.getLastD {}).numberOfSamples + sd0.numberOfSamples,
          sequences := (idx.chunks.getLastD {}).sequences ++
            [{ key := sd0.key, numberOfSamples := sd0.numberOfSamples, byteSize := b - a,
               offsetInChunk := a - (idx.chunks.getLastD {}).offset }],
          sequenceOffsetInChunkInSamples := if idx.trackFirstSamples then
              (idx.chunks.getLastD {}).sequenceOffsetInChunkInSamples ++
                [(idx.chunks.getLastD {}).numberOfSamples % UINT32_LIMIT]
            else (idx.chunks.getLastD {}).sequenceOffsetInChunkInSamples }]
        keyToSequenceInChunk := if idx.primary = false then
            insertKeyLoc idx.keyToSequenceInChunk sd0.key
              ((idx.chunks.getLastD {}).id,
                (idx.chunks.getLastD {}).sequences.length % UINT32_LIMIT)
          else idx.keyToSequenceInChunk
        maxChunkSize := idx.maxChunkSize
        primary := idx.primary
        trackFirstSamples := idx.trackFirstSamples } := by
  simp only [List.getLastD_eq_getLast?] at hnew
  by_cases htr : idx.trackFirstSamples = true <;>
  by_cases hpr : idx.primary = false <;>
  simp [addSequenceOk, htr, hpr, hnew, and_self]

/-- The capacity checks a successful `AddSequence` has passed. -/
theorem addSequence_ok_conditions {idx : Index} {sd : SequenceDescriptor} {a b : Nat}
    {idx2 : Index} (hok : Index.addSequence idx sd a b = .ok idx2) :
    ¬((0 < (idx.chunks.getLastD {}).byteSize ∧
        idx.maxChunkSize < (idx.chunks.getLastD {}).byteSize + (b - a)) ∧
      CHUNKID_MAX < idx.chunks.length + 1) ∧
    ¬(idx.primary = false ∧ ¬(0 < (idx.chunks.getLastD {}).byteSize ∧
        idx.maxChunkSize < (idx.chunks.getLastD {}).byteSize + (b - a)) ∧
      UINT32_LIMIT ≤ (idx.chunks.getLastD {}).sequences.length) := by
  by_cases htr : idx.trackFirstSamples = true <;>
  by_cases hnew : 0 < (idx.chunks.getLastD {}).byteSize ∧
      idx.maxChunkSize < (idx.chunks.getLastD {}).byteSize + (b - a) <;>
  simp only [Index.addSequence, htr, hnew, and_self, decide_True, decide_False, Bool.true_and,
    Bool.false_and, Bool.false_eq_true, Bool.true_eq_false, eq_self_iff_true,
    if_true, if_false] at hok <;>
  constructor <;>
  first
    | (rintro ⟨hn, hover⟩
       first
         | exact hnew hn
         | (rw [if_pos (decide_eq_true hover)] at hok
            cases hok))
    | (rintro ⟨hpr2, hn, hseq⟩
       first
         | exact hn hnew
         | (split at hok
            · cases hok
            · rename_i hcond
              exact hcond ⟨hpr2, hseq⟩))

/-- `AddSequence` succeeds whenever both capacity checks pass. -/
theorem addSequence_ok_of_conditions {idx : Index} {sd : SequenceDescriptor} {a b : Nat}
    (h1 : ¬((0 < (idx.chunks.getLastD {}).byteSize ∧
        idx.maxChunkSize < (idx.chunks.getLastD {}).byteSize + (b - a)) ∧
      CHUNKID_MAX < idx.chunks.length + 1))
    (h2 : ¬(idx.primary = false ∧ ¬(0 < (idx.chunks.getLastD {}).byteSize ∧
        idx.maxChunkSize < (idx.chunks.getLastD {}).byteSize + (b - a)) ∧
      UINT32_LIMIT ≤ (idx.chunks.getLastD {}).sequences.length)) :
    Index.addSequence idx sd a b = .ok (addSequenceOk idx sd a b) := by
  cases hres : Index.addSequence idx sd a b with
  | ok idx2 => rw [← addSequence_ok_eq hres]
  | err e idx2 =>
    exfalso
    by_cases htr : idx.trackFirstSamples = true <;>
    by_cases hnew : 0 < (idx.chunks.getLastD {}).byteSize ∧
        idx.maxChunkSize < (idx.chunks.getLastD {}).byteSize + (b - a) <;>
    simp only [Index.addSequence, htr, hnew, and_self, decide_True, decide_False, Bool.true_and,
      Bool.false_and, Bool.false_eq_true, Bool.true_eq_false, eq_self_iff_true,
      if_true, if_false] at hres <;>
    first
      | (rw [if_neg (fun hd => h1 ⟨hnew, of_decide_eq_true hd⟩)] at hres
         split at hres
         · rename_i hcond
           have hL : UINT32_LIMIT ≤ ([] : List SequenceDescriptor).length := hcond.2
           simp [UINT32_LIMIT] at hL
         · cases hres)
      | (split at hres
         · rename_i hcond
           exact h2 ⟨hcond.1, hnew, hcond.2⟩
         · cases hres)

/-- `AddSequence` in lockstep between a plain run and a BOM run: the same
descriptor at offsets shifted by 3 succeeds too, the resulting indices
stay in correspondence, and the new last chunk's recorded offset stays at
most the start offset. -/
theorem addSequence_shift {idxP idxB : Index} {sd : SequenceDescriptor} {a b : Nat}
    {idxP2 : Index} (hrel : IdxRel idxP idxB) (hne : idxP.chunks ≠ [])
    (hoffP : (idxP.chunks.getLastD {}).offset ≤ a)
    (hoffB : (idxB.chunks.getLastD {}).offset ≤ a + 3)
    (hP : Index.addSequence idxP sd a b = .ok idxP2) :
    ∃ idxB2, Index.addSequence idxB sd (a + 3) (b + 3) = .ok idxB2 ∧ IdxRel idxP2 idxB2 ∧
      idxP2.chunks ≠ [] ∧
      (idxP2.chunks.getLastD {}).offset ≤ a ∧ (idxB2.chunks.getLastD {}).offset ≤ a + 3 := by
  obtain ⟨hchunks, hkey, hmax, hprim, htrk⟩ := hrel
  have hlen := List.Forall₂.length_eq hchunks
  have hneB : idxB.chunks ≠ [] := by
    intro hc
    rw [hc] at hlen
    exact hne (List.length_eq_zero.mp hlen)
  obtain ⟨hlid, hlbs, hlns, hlnsamp, hlsoff, hloff, hlseq⟩ := chunkRel_getLastD hchunks hne
  have hlseqlen := List.Forall₂.length_eq hlseq
  have hbma : b + 3 - (a + 3) = b - a := by omega
  obtain ⟨hc1, hc2⟩ := addSequence_ok_conditions hP
  have hB : Index.addSequence idxB sd (a + 3) (b + 3)
      = .ok (addSequenceOk idxB sd (a + 3) (b + 3)) := by
    apply addSequence_ok_of_conditions
    · rw [hbma, hlbs, hmax, ← hlen]
      exact hc1
    · rw [hbma, hprim, hlbs, hmax, ← hlseqlen]
      exact hc2
  rw [addSequence_ok_eq hP]
  refine ⟨addSequenceOk idxB sd (a + 3) (b + 3), hB, ?_⟩
  by_cases hnew : 0 < (idxP.chunks.getLastD {}).byteSize ∧
      idxP.maxChunkSize < (idxP.chunks.getLastD {}).byteSize + (b - a)
  · have hnewB : 0 < (idxB.chunks.getLastD {}).byteSize ∧
        idxB.maxChunkSize < (idxB.chunks.getLastD {}).byteSize + (b + 3 - (a + 3)) := by
      rw [hbma, hlbs, hmax]
      exact hnew
    rw [addSequenceOk_eq_new hnew, addSequenceOk_eq_new hnewB]
    refine ⟨⟨?_, ?_, ?_, ?_, ?_⟩, ?_, ?_, ?_⟩
    · refine List.rel_append hchunks (List.Forall₂.cons ⟨?_, ?_, ?_, ?_, ?_, ?_, ?_⟩
        List.Forall₂.nil)
      · show idxB.chunks.length % UINT32_LIMIT = idxP.chunks.length % UINT32_LIMIT
        rw [hlen]
      · show b + 3 - (a + 3) = b - a
        omega
      · rfl
      · rfl
      · show (if idxB.trackFirstSamples then [0] else [])
          = (if idxP.trackFirstSamples then [0] else [])
        rw [htrk]
      · exact Or.inl rfl
      · refine List.Forall₂.cons ⟨rfl, rfl, ?_, ?_⟩ List.Forall₂.nil
        · show b + 3 - (a + 3) = b - a
          omega
        · show a + 3 + 0 = a + 0 + 3
          omega
    · show (if idxB.primary = false then
          insertKeyLoc idxB.keyToSequenceInChunk sd.key (idxB.chunks.length % UINT32_LIMIT, 0)
        else idxB.keyToSequenceInChunk) = _
      rw [hprim, hkey, hlen]
    · exact hmax
    · exact hprim
    · exact htrk
    · simp
    · rw [getLastD_snoc]
    · rw [getLastD_snoc]
  · have hnewB : ¬(0 < (idxB.chunks.getLastD {}).byteSize ∧
        idxB.maxChunkSize < (idxB.chunks.getLastD {}).byteSize + (b + 3 - (a + 3))) := by
      rw [hbma, hlbs, hmax]
      exact hnew
    rw [addSequenceOk_eq_ext hnew, addSequenceOk_eq_ext hnewB]
    refine ⟨⟨?_, ?_, ?_, ?_, ?_⟩, ?_, ?_, ?_⟩
    · refine List.rel_append (forall2_dropLast hchunks)
        (List.Forall₂.cons ⟨?_, ?_, ?_, ?_, ?_, ?_, ?_⟩ List.Forall₂.nil)
      · exact hlid
      · show (idxB.chunks.getLastD {}).byteSize + (b + 3 - (a + 3))
          = (idxP.chunks.getLastD {}).byteSize + (b - a)
        rw [hlbs]
        omega
      · show (idxB.chunks.getLastD {}).numberOfSequences + 1
          = (idxP.chunks.getLastD {}).numberOfSequences + 1
        rw [hlns]
      · show (idxB.chunks.getLastD {}).numberOfSamples + sd.numberOfSamples
          = (idxP.chunks.getLastD {}).numberOfSamples + sd.numberOfSamples
        rw [hlnsamp]
      · show (if idxB.trackFirstSamples then
            (idxB.chunks.getLastD {}).sequenceOffsetInChunkInSamples ++
              [(idxB.chunks.getLastD {}).numberOfSamples % UINT32_LIMIT]
          else (idxB.chunks.getLastD {}).sequenceOffsetInChunkInSamples) = _
        rw [htrk, hlsoff, hlnsamp]
      · exact hloff
      · refine List.rel_append hlseq (List.Forall₂.cons ⟨rfl, rfl, ?_, ?_⟩ List.Forall₂.nil)
        · show b + 3 - (a + 3) = b - a
          omega
        · show (idxB.chunks.getLastD {}).offset +
              (a + 3 - (idxB.chunks.getLastD {}).offset)
            = (idxP.chunks.getLastD {}).offset +
              (a - (idxP.chunks.getLastD {}).offset) + 3
          omega
    · show (if idxB.primary = false then
          insertKeyLoc idxB.keyToSequenceInChunk sd.key
            ((idxB.chunks.getLastD {}).id,
              (idxB.chunks.getLastD {}).sequences.length % UINT32_LIMIT)
        else idxB.keyToSequenceInChunk) = _
      rw [hprim, hkey, hlid, ← hlseqlen]
    · exact hmax
    · exact hprim
    · exact htrk
    · simp
    · rw [getLastD_snoc]
      exact hoffP
    · rw [getLastD_snoc]
      exact hoffB

/-- The keyed scanning loop in lockstep between a plain run and a run on
the BOM-prefixed file: with the same fuel, numeric corpus and loop
variables (offsets shifted by 3), both successful runs produce indices in
correspondence and equal loop variables. -/
theorem keyedLoop_shift {co : Corpus} {F : Nat} (hnum : co.numeric = true) :
    ∀ {fuel seqOff prevId samples : Nat} {sP sB : ScanState} {idxP idxB : Index}
      {kP kB : KeyedSt},
    ScanInv sP → ScanInv sB →
    (sP.done = true ∨ sP.pos < sP.block.length) →
    (sB.done = true ∨ sB.pos < sB.block.length) →
    sB.file = bomBytes ++ sP.file →
    getFileOffset sB = getFileOffset sP + 3 →
    IdxRel idxP idxB → idxP.chunks ≠ [] →
    (idxP.chunks.getLastD {}).offset ≤ seqOff →
    (idxB.chunks.getLastD {}).offset ≤ seqOff + 3 →
    seqOff ≤ getFileOffset sP →
    keyedLoop co F fuel seqOff prevId samples sP idxP = .ok kP →
    keyedLoop co F fuel (seqOff + 3) prevId samples sB idxB = .ok kB →
    IdxRel kP.index kB.index ∧ kB.sequenceOffset = kP.sequenceOffset + 3 ∧
      kB.previousId = kP.previousId ∧ kB.numberOfSamples = kP.numberOfSamples ∧
      kP.index.chunks ≠ [] ∧
      (kP.index.chunks.getLastD {}).offset ≤ kP.sequenceOffset ∧
      (kB.index.chunks.getLastD {}).offset ≤ kP.sequenceOffset + 3 := by
  intro fuel
  induction fuel with
  | zero =>
    intro seqOff prevId samples sP sB idxP idxB kP kB _ _ _ _ _ _ _ _ _ _ _ hrunP _
    simp [keyedLoop] at hrunP
  | succ fuel ih =>
    intro seqOff prevId samples sP sB idxP idxB kP kB hiP hiB hpokP hpokB hfile habs hrel hne
      hoffP hoffB hseq hrunP hrunB
    have hrest : restOf sB = restOf sP := rest_bom hfile habs
    have hdone : sB.done = sP.done := by
      cases hdP : sP.done with
      | true =>
        have hr0 : restOf sB = [] := by
          rw [hrest]
          exact hiP.rest_done hdP
        exact (done_iff_rest_nil hiB hpokB).mpr hr0
      | false =>
        cases hdB : sB.done with
        | false => rfl
        | true =>
          have h1 : restOf sB = [] := hiB.rest_done hdB
          rw [hrest] at h1
          have h2 := (done_iff_rest_nil hiP hpokP).mpr h1
          rw [h2] at hdP
          cases hdP
    rw [keyedLoop] at hrunP hrunB
    by_cases hdP : sP.done = true
    · rw [if_pos hdP] at hrunP
      rw [hdone] at hrunB
      rw [if_pos hdP] at hrunB
      cases hrunP
      cases hrunB
      exact ⟨hrel, rfl, rfl, rfl, hne, hoffP, hoffB⟩
    · rw [if_neg hdP] at hrunP
      rw [hdone] at hrunB
      rw [if_neg hdP] at hrunB
      cases hskP : skipLine F sP with
      | none =>
        rw [hskP] at hrunP
        cases hrunP
      | some s1P =>
        cases hskB : skipLine F sB with
        | none =>
          rw [hskB] at hrunB
          cases hrunB
        | some s1B =>
          rw [hskP] at hrunP
          rw [hskB] at hrunB
          simp only [] at hrunP hrunB
          obtain ⟨pA, pB2, pC, pD, pE, pF⟩ := skipLine_spec hiP hskP
          obtain ⟨qA, qB2, qC, qD, qE, qF⟩ := skipLine_spec hiB hskB
          have habs1 : getFileOffset s1B = getFileOffset s1P + 3 := by
            rw [pD, qD, hrest]
            omega
          have hfile1 : s1B.file = bomBytes ++ s1P.file := by
            rw [qB2, pB2]
            exact hfile
          have hrest1 : restOf s1B = restOf s1P := rest_bom hfile1 habs1
          have hd1 : s1B.done = s1P.done := by
            have h1 := qF
            rw [hrest] at h1
            cases hd1P : s1P.done with
            | true => exact h1.mpr (pF.mp hd1P)
            | false =>
              cases hd1B : s1B.done with
              | false => rfl
              | true =>
                have h2 := pF.mpr (h1.mp hd1B)
                rw [h2] at hd1P
                cases hd1P
          by_cases hd1P : s1P.done = true
          · rw [if_pos hd1P] at hrunP
            rw [hd1] at hrunB
            rw [if_pos hd1P] at hrunB
            exact ih pA qA (Or.inl hd1P) (Or.inl (by rw [hd1]; exact hd1P)) hfile1 habs1
              hrel hne hoffP hoffB (by omega) hrunP hrunB
          · rw [if_neg hd1P] at hrunP
            rw [hd1] at hrunB
            rw [if_neg hd1P] at hrunB
            have hd1Pf : s1P.done = false := by
              cases h : s1P.done
              · rfl
              · exact absurd h hd1P
            have hd1Bf : s1B.done = false := by
              rw [hd1]
              exact hd1Pf
            cases htgP : tryGetSequenceId co F s1P with
            | none =>
              rw [htgP] at hrunP
              cases hrunP
            | some rP =>
              cases htgB : tryGetSequenceId co F s1B with
              | none =>
                rw [htgB] at hrunB
                cases hrunB
              | some rB =>
                obtain ⟨foundP, idP, s2P⟩ := rP
                obtain ⟨foundB, idB, s2B⟩ := rB
                rw [htgP] at hrunP
                rw [htgB] at hrunB
                simp only [] at hrunP hrunB
                rw [tryGetSequenceId, if_pos hnum, tryGetNumericSequenceId] at htgP htgB
                have hpok1P : s1P.done = true ∨ s1P.pos < s1P.block.length :=
                  Or.inr (pE hd1Pf)
                have hpok1B : s1B.done = true ∨ s1B.pos < s1B.block.length :=
                  Or.inr (qE hd1Bf)
                obtain ⟨tA, tB2, tC, tD, tE, tF, tG, tH, tI⟩ :=
                  tryGetNumericSequenceIdLoop_spec pA hpok1P htgP
                obtain ⟨uA, uB2, uC, uD, uE, uF, uG, uH, uI⟩ :=
                  tryGetNumericSequenceIdLoop_spec qA hpok1B htgB
                have hid : idB = idP := by
                  rw [tG, uG, hrest1]
                have hfound : foundB = foundP := by
                  have h1 : foundB = true ↔ foundP = true := by
                    rw [tH, uH, hrest1]
                  cases foundB with
                  | true => exact (h1.mp rfl).symm
                  | false =>
                    cases foundP with
                    | false => rfl
                    | true => cases h1.mpr rfl
                have habs2 : getFileOffset s2B = getFileOffset s2P + 3 := by
                  rw [tD, uD, hrest1]
                  omega
                have hfile2 : s2B.file = bomBytes ++ s2P.file := by
                  rw [uB2, tB2]
                  exact hfile1
                have hpok2P : s2P.done = true ∨ s2P.pos < s2P.block.length := by
                  by_cases hd2P : s2P.done = true
                  · exact Or.inl hd2P
                  · refine Or.inr (tF ?_)
                    cases h : s2P.done
                    · rfl
                    · exact absurd h hd2P
                have hpok2B : s2B.done = true ∨ s2B.pos < s2B.block.length := by
                  by_cases hd2B : s2B.done = true
                  · exact Or.inl hd2B
                  · refine Or.inr (uF ?_)
                    cases h : s2B.done
                    · rfl
                    · exact absurd h hd2B
                rw [hfound, hid, habs1] at hrunB
                by_cases hem : foundP = true ∧ idP ≠ prevId
                · rw [if_pos hem] at hrunP hrunB
                  cases haddP : idxP.addSequence
                      { key := prevId, numberOfSamples := (samples + 1) % UINT32_LIMIT }
                      seqOff (getFileOffset s1P) with
                  | err e idxE =>
                    rw [haddP] at hrunP
                    cases hrunP
                  | ok idxP2 =>
                    obtain ⟨idxB2, hBadd, hrel2, hne2, hoffP2, hoffB2⟩ :=
                      addSequence_shift ⟨hrel.1, hrel.2.1, hrel.2.2.1, hrel.2.2.2.1,
                        hrel.2.2.2.2⟩ hne hoffP hoffB haddP
                    rw [haddP] at hrunP
                    rw [hBadd] at hrunB
                    simp only [] at hrunP hrunB
                    exact ih tA uA hpok2P hpok2B hfile2 habs2 hrel2 hne2 (by omega) (by omega)
                      (by omega) hrunP hrunB
                · rw [if_neg hem] at hrunP hrunB
                  exact ih tA uA hpok2P hpok2B hfile2 habs2 hrel hne hoffP hoffB (by omega)
                    hrunP hrunB

theorem forall2_seq_spans {offP offB : Nat} :
    ∀ {l1 l2 : List SequenceDescriptor}, List.Forall₂ (SeqRel offP offB) l1 l2 →
    l2.map (fun sd => (sd.key, sd.numberOfSamples, offB + sd.offsetInChunk,
        offB + sd.offsetInChunk + sd.byteSize))
      = (l1.map (fun sd => (sd.key, sd.numberOfSamples, offP + sd.offsetInChunk,
          offP + sd.offsetInChunk + sd.byteSize))).map
          (fun q => (q.1, q.2.1, q.2.2.1 + 3, q.2.2.2 + 3)) := by
  intro l1 l2 h
  induction h with
  | nil => rfl
  | @cons sP sB ssP ssB hsr htail ih =>
    obtain ⟨hk, hsamp, hbs, hoff⟩ := hsr
    rw [List.map_cons, List.map_cons, List.map_cons, ih]
    congr 1
    simp only [Prod.mk.injEq]
    exact ⟨hk, hsamp, by omega, by omega⟩

theorem forall2_chunk_spans :
    ∀ {l1 l2 : List ChunkDescriptor}, List.Forall₂ ChunkRel l1 l2 →
    l2.flatMap (fun c => c.sequences.map (fun sd => (sd.key, sd.numberOfSamples,
        c.offset + sd.offsetInChunk, c.offset + sd.offsetInChunk + sd.byteSize)))
      = (l1.flatMap (fun c => c.sequences.map (fun sd => (sd.key, sd.numberOfSamples,
          c.offset + sd.offsetInChunk, c.offset + sd.offsetInChunk + sd.byteSize)))).map
          (fun q => (q.1, q.2.1, q.2.2.1 + 3, q.2.2.2 + 3)) := by
  intro l1 l2 h
  induction h with
  | nil => rfl
  | @cons cP cB csP csB hcr htail ih =>
    obtain ⟨-, -, -, -, -, -, hseq⟩ := hcr
    rw [List.flatMap_cons, List.flatMap_cons, List.map_append, ih]
    congr 1
    exact forall2_seq_spans hseq

/-- Index correspondence determines the absolute spans: the BOM run's
spans are the plain run's spans with both file offsets shifted by 3. -/
theorem idxRel_absSpans {idxP idxB : Index} (h : IdxRel idxP idxB) :
    idxB.absSpans = idxP.absSpans.map (fun q => (q.1, q.2.1, q.2.2.1 + 3, q.2.2.2 + 3)) := by
  rw [Index.absSpans, Index.absSpans]
  exact forall2_chunk_spans h.1

/-- A fresh index is in correspondence with itself. -/
theorem idxRel_init (chunkSize : Nat) (primary trackFS : Bool) :
    IdxRel (Index.init chunkSize primary trackFS) (Index.init chunkSize primary trackFS) :=
  ⟨List.Forall₂.cons ⟨rfl, rfl, rfl, rfl, rfl, Or.inr ⟨rfl, rfl⟩, List.Forall₂.nil⟩
    List.Forall₂.nil, rfl, rfl, rfl, rfl⟩

/-- C3: running `Build` with numeric sequence keys on the input
`"0|data1\n0|data2\n1|data3\n"` produces exactly 2 sequence descriptors:
key 0 with 2 samples spanning file bytes [0,16), and key 1 with 1 sample
spanning file bytes [16,24). -/
theorem C3_two_sequences :
    ((Indexer.build (Indexer.init c3File true false 124 1000000 1024 false) numCorpus 100).okIndex).map
      Index.absSpans = some [(0, 2, 0, 16), (1, 1, 16, 24)] := by
  decide

/-- C7: for a zero-byte input file, `Build` on a fresh indexer always
fails with the empty-input error (for every configuration, corpus and
fuel), the failure state is exactly the input state with the `done` flag
set, and the index remains empty. -/
theorem C7_empty_input (primary skipSequenceIds trackFS : Bool)
    (streamPref chunkSize bufferSize F : Nat) (co : Corpus) :
    Indexer.build (Indexer.init [] primary skipSequenceIds streamPref chunkSize bufferSize trackFS)
        co F =
      .err .emptyInput
        { Indexer.init [] primary skipSequenceIds streamPref chunkSize bufferSize trackFS with
          scan := { (Indexer.init [] primary skipSequenceIds streamPref chunkSize bufferSize
              trackFS).scan with done := true } } ∧
    (Indexer.init [] primary skipSequenceIds streamPref chunkSize bufferSize
        trackFS).index.isEmpty = true := by
  constructor
  · simp [Indexer.build, Indexer.init, Index.init, Index.isEmpty, refillBuffer]
  · rfl

/-- C10: a leading UTF-8 BOM is skipped only when the first buffer refill
yields strictly more than 3 bytes.  First conjunct: whenever the first
read block holds at most `min bufferSize file.length ≤ 3` bytes, the
BOM test-and-skip leaves the state untouched.  Second conjunct: on the
file consisting of exactly the 3 BOM bytes, the subsequent mode detection
and scanning treat them as ordinary content: the keyed scan looks for a
first sequence key, finds none (0xEF is not a digit), and `Build` fails
with the missing-first-key error at offset 0. -/
theorem C10_bom_needs_more_than_three_bytes :
    (∀ (file : List Nat) (primary skipSequenceIds trackFS : Bool)
        (streamPref chunkSize bufferSize : Nat),
      min bufferSize file.length ≤ 3 →
      bomSkip (refillBuffer (Indexer.init file primary skipSequenceIds streamPref chunkSize
          bufferSize trackFS).scan) =
        refillBuffer (Indexer.init file primary skipSequenceIds streamPref chunkSize
          bufferSize trackFS).scan) ∧
    errOf (Indexer.build (Indexer.init [239, 187, 191] true false 124 100 1024 false)
        numCorpus 10) = some (.noFirstKey 0) := by
  constructor
  · intro file primary skipSequenceIds trackFS streamPref chunkSize bufferSize h
    simp only [Indexer.init, refillBuffer, Bool.false_eq_true, if_false]
    simp only [List.drop_zero, Nat.sub_zero]
    by_cases h0 : min bufferSize file.length = 0
    · simp [h0, bomSkip]
    · simp only [h0, if_false]
      have hlen : (file.take (min bufferSize file.length)).length = min bufferSize file.length := by
        simp [List.length_take, Nat.min_assoc, Nat.min_self]
      simp only [bomSkip]
      rw [if_neg]
      intro hc
      have := hc.1
      simp only [hlen] at this
      omega
  · decide

/-- C10 witness: the first conjunct of the theorem applied to the
three-byte BOM file with a read buffer of 2 bytes. -/
theorem C10_witness :
    min 2 ([239, 187, 191] : List Nat).length ≤ 3 ∧
    bomSkip (refillBuffer (Indexer.init [239, 187, 191] true false 124 100 2 false).scan) =
      refillBuffer (Indexer.init [239, 187, 191] true false 124 100 2 false).scan :=
  ⟨by decide, C10_bom_needs_more_than_three_bytes.1 [239, 187, 191] true false false 124 100 2
    (by decide)⟩

/-- C2 counterexample: after adding a zero-byte sequence and then a
100-byte sequence to a fresh index with `maxChunkByteSize = 10`, the
single chunk has `byteSize = 100 > 10` yet contains 2 sequences — the
claimed invariant ("every over-budget chunk contains exactly one
sequence") fails, because the code tests `byteSize > 0`, not "chunk is
non-empty": a chunk holding only zero-byte sequences still accepts any
incoming sequence. -/
theorem C2_counterexample :
    (c2Run.okIdx.map fun i => i.chunks.map fun c => (c.byteSize, c.sequences.length)) =
      some [(100, 2)] ∧
    (Index.init 10 true false).maxChunkSize = 10 ∧ 10 < 100 := by
  decide

/-- C4 counterexample: in line-delimited mode (`skipSequenceIds = true`)
on input `"a\n"`, `Build` with a corpus using numeric keys (one that does
not accept non-numeric keys) succeeds, while the claim predicts a format
error exactly then; with a corpus using non-numeric (symbolic) keys it
fails with the format error, while the claim predicts success.  The
code's check is the opposite of the claim's. -/
theorem C4_counterexample :
    isFormatErr (Indexer.build (Indexer.init c4File true true 124 100 1024 false) numCorpus 10)
        = false ∧
    (Indexer.build (Indexer.init c4File true true 124 100 1024 false) numCorpus 10).okIndex.isSome
        = true ∧
    isFormatErr (Indexer.build (Indexer.init c4File true true 124 100 1024 false) symCorpus 10)
        = true := by
  decide

/-- C5 counterexample: on the input `"12"` the numeric key parser reads
both digit bytes (the returned id is 12 and the cursor has advanced past
them), reaches end-of-input, and reports "no key found" (`found = false`)
— contradicting the claim that every call reading at least one digit
reports that a key was found. -/
theorem C5_counterexample :
    c5State.block = [49, 50] ∧ isdigitByte 49 = true ∧
    tryGetNumericSequenceId 10 c5State = some (false, 12, { c5State with pos := 2, done := true }) := by
  decide

/-- C9 counterexample: on the malformed numeric-key input `"0|a\n1"`,
whose trailing line holds the new key 1 with no completed record, `Build`
succeeds and emits a single descriptor — key 0 with `numberOfSamples = 1`
covering all 5 file bytes.  No zero-sample descriptor is produced: the
trailing bytes are absorbed into the previous sequence. -/
theorem C9_counterexample :
    ((Indexer.build (Indexer.init c9File true false 124 1000000 1024 false) numCorpus 10).okIndex).map
      Index.allSequences =
      some [{ key := 0, numberOfSamples := 1, byteSize := 5, offsetInChunk := 0 }] := by
  decide

/-- C8 counterexample: building `"0|aaaa\n1|bbbb\n"` with a 5-byte chunk
budget gives chunk file offsets `[0, 7]`; building the same bytes behind
a 3-byte BOM gives chunk file offsets `[0, 10]`: the second chunk's
offset is larger by 3, but the first chunk's offset is 0 in both runs
(the initial chunk's `fileOffset` is never assigned), contradicting the
claim that every chunk file offset grows by exactly 3.  The absolute
sequence spans do all shift by 3. -/
theorem C8_counterexample :
    ((Indexer.build (Indexer.init c8FileP true false 124 5 1024 false) numCorpus 20).okIndex).map
        (fun i => i.chunks.map fun c => c.offset) = some [0, 7] ∧
    ((Indexer.build (Indexer.init c8FileB true false 124 5 1024 false) numCorpus 20).okIndex).map
        (fun i => i.chunks.map fun c => c.offset) = some [0, 10] ∧
    (0 : Nat) ≠ 0 + 3 ∧
    ((Indexer.build (Indexer.init c8FileP true false 124 5 1024 false) numCorpus 20).okIndex).map
        Index.absSpans = some [(0, 1, 0, 7), (1, 1, 7, 14)] ∧
    ((Indexer.build (Indexer.init c8FileB true false 124 5 1024 false) numCorpus 20).okIndex).map
        Index.absSpans = some [(0, 1, 3, 10), (1, 1, 10, 17)] := by
  decide

/-- C1: for every non-empty input file on which `Build` completes without
error, the sum of the `byteSize` fields over all chunks of the resulting
index equals the file size minus the number of BOM bytes skipped (3 when a
leading UTF-8 BOM was skipped, 0 otherwise), in both line-delimited and
keyed modes. -/
theorem C1_total_byte_size {file : List Nat} {primary skipIds trackFS : Bool}
    {pref chunkSize bufferSize F : Nat} {co : Corpus} {st : IndexerState}
    (hne : file ≠ [])
    (hrun : Indexer.build (Indexer.init file primary skipIds pref chunkSize bufferSize trackFS)
      co F = .ok st) :
    st.index.totalByteSize = file.length - (if bomSkipped file bufferSize then 3 else 0) :=
  (build_init_ok_spec hrun).1

/-- C1 witness: the theorem applied to the keyless input `"a\n"` (no BOM,
2 bytes indexed). -/
theorem C1_witness :
    c1State.index.totalByteSize = c4File.length - (if bomSkipped c4File 16 then 3 else 0) :=
  C1_total_byte_size (by decide)
    (by decide : Indexer.build (Indexer.init c4File true true 124 100 16 false) numCorpus 10
      = .ok c1State)

/-- C6: `Build` on an already-populated index is a no-op for every corpus
and fuel, returning the state (chunks, sequences, key map) unchanged and
without error; consequently `Build` is idempotent: a second `Build` after
a successful one returns the built state unchanged. -/
theorem C6_populated_noop :
    (∀ (ix : IndexerState) (co : Corpus) (F : Nat), ix.index.isEmpty = false →
      Indexer.build ix co F = .ok ix) ∧
    (∀ {file : List Nat} {primary skipIds trackFS : Bool}
      {pref chunkSize bufferSize F : Nat} {co : Corpus} {st : IndexerState},
      Indexer.build (Indexer.init file primary skipIds pref chunkSize bufferSize trackFS) co F
        = .ok st →
      ∀ (co2 : Corpus) (F2 : Nat), Indexer.build st co2 F2 = .ok st) := by
  have hbase : ∀ (ix : IndexerState) (co : Corpus) (F : Nat), ix.index.isEmpty = false →
      Indexer.build ix co F = .ok ix := by
    intro ix co F h
    rw [Indexer.build, if_pos h]
  refine ⟨hbase, ?_⟩
  intro file primary skipIds trackFS pref chunkSize bufferSize F co st hrun co2 F2
  exact hbase st co2 F2 (build_init_ok_spec hrun).2.1

/-- C6 witness: the populated state built from `"a\n"` is returned
unchanged by further `Build` calls, with either corpus. -/
theorem C6_witness :
    Indexer.build c1State symCorpus 3 = .ok c1State ∧
      Indexer.build c1State numCorpus 7 = .ok c1State :=
  ⟨C6_populated_noop.1 c1State symCorpus 3 (by decide),
   C6_populated_noop.2 (by decide :
     Indexer.build (Indexer.init c4File true true 124 100 16 false) numCorpus 10 = .ok c1State)
     numCorpus 7⟩

/-- C9 (amended): for every input shorter than `2^32 - 1` bytes, a
successful `Build` on a fresh indexer never emits a zero-sample
descriptor: the sample counter increments once per scanned line before any
descriptor is closed, so trailing content holding a key with no completed
record is merged into the previous sequence's descriptor. -/
theorem C9_amended_no_zero_sample {file : List Nat} {primary skipIds trackFS : Bool}
    {pref chunkSize bufferSize F : Nat} {co : Corpus} {st : IndexerState}
    (hsmall : file.length + 1 < UINT32_LIMIT)
    (hrun : Indexer.build (Indexer.init file primary skipIds pref chunkSize bufferSize trackFS)
      co F = .ok st) :
    ∀ x ∈ st.index.allSequences, 1 ≤ x.numberOfSamples :=
  fun x hx => (build_init_ok_spec hrun).2.2 hsmall x hx

/-- C9 witness: the amended theorem applied to the malformed input
`"0|a\n1"`, whose only descriptor holds one sample. -/
theorem C9_amended_witness :
    1 ≤ ((c9State.index.allSequences.headD
      { key := 0, numberOfSamples := 0 }).numberOfSamples) :=
  C9_amended_no_zero_sample (by decide)
    (by decide : Indexer.build (Indexer.init c9File true false 124 100 16 false) numCorpus 20
      = .ok c9State) _ (by decide)

/-- C4 (amended): whenever `Build` takes the line-delimited path —
`skipSequenceIds` set, or the first content byte (after the BOM check)
equal to the configured stream prefix — it fails with the format error
if and only if the corpus does NOT use numeric keys: the code throws
when `corpus->IsNumericSequenceKeys()` is false, the opposite of the
claimed direction; on failure nothing has been scanned: the state is the
fresh indexer after the first refill and BOM check, its index
untouched. -/
theorem C4_amended_format_error {file : List Nat} {primary skipIds trackFS : Bool}
    {pref chunkSize bufferSize F : Nat} {co : Corpus}
    (hm : min bufferSize file.length ≠ 0)
    (hmode : skipIds = true ∨
      (bomSkip (firstBlockState file bufferSize)).block.getD
        (bomSkip (firstBlockState file bufferSize)).startIdx 0 = pref) :
    (isFormatErr (Indexer.build
        (Indexer.init file primary skipIds pref chunkSize bufferSize trackFS)
        co F) = true ↔ co.numeric = false) ∧
    (co.numeric = false →
      Indexer.build (Indexer.init file primary skipIds pref chunkSize bufferSize trackFS) co F
        = .err .formatLineMode
          { Indexer.init file primary skipIds pref chunkSize bufferSize trackFS with
            scan := bomSkip (firstBlockState file bufferSize) }) := by
  have hmode2 :
      (Indexer.init file primary skipIds pref chunkSize bufferSize trackFS).hasSequenceIds
        = false ∨
      (bomSkip (firstBlockState file bufferSize)).block.getD
        (bomSkip (firstBlockState file bufferSize)).startIdx 0
        = (Indexer.init file primary skipIds pref chunkSize bufferSize trackFS).streamPref := by
    rcases hmode with rfl | h
    · exact Or.inl rfl
    · exact Or.inr h
  rw [Indexer.build]
  rw [if_neg (by simp [Indexer.init, Index.init, Index.isEmpty])]
  simp only []
  rw [refill_init]
  rw [if_neg hm]
  rw [if_neg (by simp [firstBlockState])]
  rw [if_pos hmode2]
  by_cases hnum : co.numeric = false
  · rw [if_pos hnum]
    exact ⟨⟨fun _ => hnum, fun _ => rfl⟩, fun _ => rfl⟩
  · rw [if_neg hnum]
    refine ⟨⟨?_, fun hc => absurd hc hnum⟩, fun hc => absurd hc hnum⟩
    intro hfmt
    exfalso
    cases hbl : buildFromLines F (bomSkip (firstBlockState file bufferSize))
        (Indexer.init file primary skipIds pref chunkSize bufferSize trackFS).index with
    | outOfFuel =>
      rw [hbl] at hfmt
      cases hfmt
    | ok p =>
      obtain ⟨s2, idx2⟩ := p
      rw [hbl] at hfmt
      simp [isFormatErr] at hfmt
    | err e p =>
      obtain ⟨s2, idx2⟩ := p
      rw [hbl] at hfmt
      rcases buildFromLines_err hbl with rfl | rfl <;> simp [isFormatErr] at hfmt

/-- C4 witness: the amended theorem applied on both line-path entries —
the keyless input `"a\n"` with `skipSequenceIds` set, and the input
`"|x\n"` whose first byte equals the stream prefix with
`skipSequenceIds` unset; with a symbolic-key corpus both raise the
format error. -/
theorem C4_amended_witness :
    isFormatErr (Indexer.build (Indexer.init c4File true true 124 100 16 false) symCorpus 10)
        = true ∧
      isFormatErr (Indexer.build (Indexer.init c4bFile true false 124 100 16 false) symCorpus 10)
        = true :=
  ⟨(C4_amended_format_error (by decide) (Or.inl rfl)).1.mpr (by decide),
   (C4_amended_format_error (by decide) (Or.inr (by decide))).1.mpr (by decide)⟩

/-- C2 (amended): a successful `AddSequence` opens a new chunk exactly
when the current chunk has positive byte size (not: holds a sequence) and
the incoming sequence would push its byte size past the budget; hence
after any run of `AddSequence` calls in which every sequence has positive
size, every chunk's byte size fits the budget or the chunk holds exactly
one sequence.  (With zero-size sequences admitted the bound fails:
`C2_counterexample`.) -/
theorem C2_amended_chunk_budget :
    (∀ (idx : Index) (sd : SequenceDescriptor) (a b : Nat) (idx2 : Index), idx.chunks ≠ [] →
      Index.addSequence idx sd a b = .ok idx2 →
      (idx2.chunks.length = idx.chunks.length + 1 ↔
        (0 < (idx.chunks.getLastD {}).byteSize ∧
          idx.maxChunkSize < (idx.chunks.getLastD {}).byteSize + (b - a)))) ∧
    (∀ (chunkSize : Nat) (primary trackFS : Bool)
      (calls : List (SequenceDescriptor × Nat × Nat)) (idx2 : Index),
      (∀ e ∈ calls, e.2.1 < e.2.2) →
      addMany (Index.init chunkSize primary trackFS) calls = .ok idx2 →
      ∀ c ∈ idx2.chunks, c.byteSize ≤ chunkSize ∨ c.numberOfSequences = 1) := by
  constructor
  · intro idx sd a b idx2 hne hok
    exact addSequence_new_chunk_iff hne hok
  · intro chunkSize primary trackFS calls idx2 hpos hrun c hc
    refine (addMany_budget rfl hpos ?_ hrun c hc).1
    intro c2 hc2
    rw [Index.init] at hc2
    simp only [List.mem_singleton] at hc2
    subst hc2
    exact ⟨Or.inl (Nat.zero_le _), fun _ => rfl⟩

/-- C2 witness: the amended rule applied to two positive-size sequences
(5 then 7 bytes) against a 10-byte budget: the second call opens a new
chunk, and both final chunks satisfy the bound. -/
theorem C2_amended_witness :
    (c2Idx.chunks.length = c2Mid.chunks.length + 1 ↔
      (0 < (c2Mid.chunks.getLastD {}).byteSize ∧
        c2Mid.maxChunkSize < (c2Mid.chunks.getLastD {}).byteSize + (12 - 5))) ∧
    ((c2Idx.chunks.getLastD {}).byteSize ≤ 10 ∨
      (c2Idx.chunks.getLastD {}).numberOfSequences = 1) :=
  ⟨C2_amended_chunk_budget.1 c2Mid { key := 1, numberOfSamples := 1 } 5 12 c2Idx
      (by decide) (by decide),
   C2_amended_chunk_budget.2 10 true false c2Calls c2Idx (by decide) (by decide) _ (by decide)⟩

/-- C8 (amended): for numeric-keyed inputs (first content byte a digit
differing from the stream prefix), building the BOM-prefixed file yields
the same index as building the plain file with every absolute sequence
offset (start and end) larger by exactly 3 — keys, sample counts, byte
sizes, chunk ids, totals and the assignment of sequences to chunks
identical — except that a chunk's recorded file offset shifts by 3 only
when it was assigned at all: the initial chunk's offset field is never
written and stays 0 in both runs (`C8_counterexample`). -/
theorem C8_amended_bom_shift {file : List Nat} {primary trackFS : Bool}
    {pref chunkSize bufferSize F : Nat} {co : Corpus} {stP stB : IndexerState}
    (hnum : co.numeric = true)
    (hfile : file ≠ [])
    (hdig : isdigitByte (file.headD 0) = true)
    (hpref : file.headD 0 ≠ pref)
    (hbuf : 4 ≤ bufferSize)
    (hP : Indexer.build (Indexer.init file primary false pref chunkSize bufferSize trackFS)
      co F = .ok stP)
    (hB : Indexer.build
      (Indexer.init (bomBytes ++ file) primary false pref chunkSize bufferSize trackFS)
      co F = .ok stB) :
    IdxRel stP.index stB.index ∧
      stB.index.absSpans
        = stP.index.absSpans.map (fun q => (q.1, q.2.1, q.2.2.1 + 3, q.2.2.2 + 3)) := by
  have hflen : 0 < file.length := List.length_pos.mpr hfile
  have hmP : min bufferSize file.length ≠ 0 := by omega
  have hlenB : (bomBytes ++ file).length = file.length + 3 := by
    rw [List.length_append, show bomBytes.length = 3 from rfl]
    omega
  have hmB : min bufferSize (bomBytes ++ file).length ≠ 0 := by
    rw [hlenB]
    omega
  rw [Indexer.build] at hP hB
  rw [if_neg (by simp [Indexer.init, Index.init, Index.isEmpty])] at hP
  rw [if_neg (by simp [Indexer.init, Index.init, Index.isEmpty])] at hB
  simp only [] at hP hB
  rw [refill_init] at hP
  rw [refill_init] at hB
  rw [if_neg hmP] at hP
  rw [if_neg hmB] at hB
  rw [if_neg (by simp [firstBlockState])] at hP
  rw [if_neg (by simp [firstBlockState])] at hB
  have hb0P : (firstBlockState file bufferSize).block.getD 0 0 = file.headD 0 := by
    show (file.take (min bufferSize file.length)).getD 0 0 = file.headD 0
    rw [take_getD (Nat.pos_of_ne_zero hmP)]
    cases file with
    | nil => rfl
    | cons x xs => rfl
  have hbsP : bomSkip (firstBlockState file bufferSize) = firstBlockState file bufferSize := by
    rw [bomSkip, if_neg]
    rintro ⟨-, h2, -, -⟩
    have h3 : (firstBlockState file bufferSize).block.getD 0 0 = 239 := h2
    rw [hb0P] at h3
    rw [h3] at hdig
    exact absurd hdig (by decide)
  rw [hbsP] at hP
  have hminB3 : 3 < min bufferSize (bomBytes ++ file).length := by
    rw [hlenB]
    omega
  have hblockB : (firstBlockState (bomBytes ++ file) bufferSize).block.length
      = min bufferSize (bomBytes ++ file).length := by
    simp [firstBlockState, List.length_take]
  have hcondB : 3 < (firstBlockState (bomBytes ++ file) bufferSize).block.length
        - (firstBlockState (bomBytes ++ file) bufferSize).startIdx ∧
      (firstBlockState (bomBytes ++ file) bufferSize).block.getD
        (firstBlockState (bomBytes ++ file) bufferSize).startIdx 0 = 239 ∧
      (firstBlockState (bomBytes ++ file) bufferSize).block.getD
        ((firstBlockState (bomBytes ++ file) bufferSize).startIdx + 1) 0 = 187 ∧
      (firstBlockState (bomBytes ++ file) bufferSize).block.getD
        ((firstBlockState (bomBytes ++ file) bufferSize).startIdx + 2) 0 = 191 := by
    refine ⟨?_, ?_, ?_, ?_⟩
    · show 3 < (firstBlockState (bomBytes ++ file) bufferSize).block.length - 0
      rw [hblockB]
      omega
    · show ((bomBytes ++ file).take (min bufferSize (bomBytes ++ file).length)).getD 0 0 = 239
      rw [take_getD (by omega)]
      rfl
    · show ((bomBytes ++ file).take (min bufferSize (bomBytes ++ file).length)).getD 1 0 = 187
      rw [take_getD (by omega)]
      rfl
    · show ((bomBytes ++ file).take (min bufferSize (bomBytes ++ file).length)).getD 2 0 = 191
      rw [take_getD (by omega)]
      rfl
  obtain ⟨bA, bB2, bC, bD, bE, bF, bG, bH, bI⟩ := bomSkip_first_block hmB
  have hbomB : bomSkipped (bomBytes ++ file) bufferSize = true := by
    rw [bomSkipped]
    simp only [Bool.and_eq_true, decide_eq_true_eq]
    exact ⟨hminB3, rfl⟩
  have habsB3 : getFileOffset (bomSkip (firstBlockState (bomBytes ++ file) bufferSize)) = 3 := by
    rw [bI, if_pos hbomB]
  have hmodeP :
      ¬((Indexer.init file primary false pref chunkSize bufferSize trackFS).hasSequenceIds
          = false ∨
        (firstBlockState file bufferSize).block.getD (firstBlockState file bufferSize).startIdx 0
          = (Indexer.init file primary false pref chunkSize bufferSize trackFS).streamPref) := by
    rintro (h | h)
    · cases h
    · have h2 : (firstBlockState file bufferSize).block.getD 0 0 = pref := h
      rw [hb0P] at h2
      exact hpref h2
  rw [if_neg hmodeP] at hP
  have hbsB : bomSkip (firstBlockState (bomBytes ++ file) bufferSize)
      = { firstBlockState (bomBytes ++ file) bufferSize with
          pos := (firstBlockState (bomBytes ++ file) bufferSize).pos + 3,
          fileOffsetStart :=
            (firstBlockState (bomBytes ++ file) bufferSize).fileOffsetStart + 3,
          startIdx := (firstBlockState (bomBytes ++ file) bufferSize).startIdx + 3 } := by
    rw [bomSkip, if_pos hcondB]
  have hmodeB :
      ¬((Indexer.init (bomBytes ++ file) primary false pref chunkSize bufferSize
            trackFS).hasSequenceIds = false ∨
        (bomSkip (firstBlockState (bomBytes ++ file) bufferSize)).block.getD
          (bomSkip (firstBlockState (bomBytes ++ file) bufferSize)).startIdx 0
          = (Indexer.init (bomBytes ++ file) primary false pref chunkSize bufferSize
              trackFS).streamPref) := by
    rintro (h | h)
    · cases h
    · rw [hbsB] at h
      have h2 : ((bomBytes ++ file).take (min bufferSize (bomBytes ++ file).length)).getD 3 0
          = pref := h
      rw [take_getD hminB3] at h2
      have h3 : (bomBytes ++ file).getD 3 0 = file.headD 0 := by
        cases file with
        | nil => rfl
        | cons x xs => rfl
      rw [h3] at h2
      exact hpref h2
  rw [if_neg hmodeB] at hB
  cases htgP : tryGetSequenceId co F (firstBlockState file bufferSize) with
  | none =>
    rw [htgP] at hP
    cases hP
  | some rP =>
  cases htgB : tryGetSequenceId co F (bomSkip (firstBlockState (bomBytes ++ file) bufferSize))
      with
  | none =>
    rw [htgB] at hB
    cases hB
  | some rB =>
  obtain ⟨foundP, idP, s2P⟩ := rP
  obtain ⟨foundB, idB, s2B⟩ := rB
  rw [htgP] at hP
  rw [htgB] at hB
  simp only [] at hP hB
  rw [tryGetSequenceId, if_pos hnum, tryGetNumericSequenceId] at htgP htgB
  have hinvP : ScanInv (firstBlockState file bufferSize) := scanInv_first_block hmP
  have hblockP : (firstBlockState file bufferSize).block.length
      = min bufferSize file.length := by
    simp [firstBlockState, List.length_take]
  have hpokP : (firstBlockState file bufferSize).done = true ∨
      (firstBlockState file bufferSize).pos < (firstBlockState file bufferSize).block.length := by
    right
    show 0 < (firstBlockState file bufferSize).block.length
    rw [hblockP]
    omega
  have hpokB : (bomSkip (firstBlockState (bomBytes ++ file) bufferSize)).done = true ∨
      (bomSkip (firstBlockState (bomBytes ++ file) bufferSize)).pos <
        (bomSkip (firstBlockState (bomBytes ++ file) bufferSize)).block.length := Or.inr bG
  obtain ⟨tA, tB2, tC, tD, tE, tF, tG, tH, tI⟩ :=
    tryGetNumericSequenceIdLoop_spec hinvP hpokP htgP
  obtain ⟨uA, uB2, uC, uD, uE, uF, uG, uH, uI⟩ :=
    tryGetNumericSequenceIdLoop_spec bA hpokB htgB
  have habsP0 : getFileOffset (firstBlockState file bufferSize) = 0 := rfl
  have hfileB1 : (bomSkip (firstBlockState (bomBytes ++ file) bufferSize)).file
      = bomBytes ++ file := bC
  have hrest1 : restOf (bomSkip (firstBlockState (bomBytes ++ file) bufferSize))
      = restOf (firstBlockState file bufferSize) := by
    have h3 : (bomBytes ++ file).drop 3 = file := List.drop_left bomBytes file
    rw [restOf, restOf, hfileB1, habsB3, habsP0]
    show (bomBytes ++ file).drop 3 = file.drop 0
    rw [h3, List.drop_zero]
  have hid : idB = idP := by
    rw [tG, uG, hrest1]
  have hfound : foundB = foundP := by
    have h1 : foundB = true ↔ foundP = true := by
      rw [tH, uH, hrest1]
    cases foundB with
    | true => exact (h1.mp rfl).symm
    | false =>
      cases foundP with
      | false => rfl
      | true => cases h1.mpr rfl
  rw [hfound, hid] at hB
  by_cases hfP : foundP = false
  · rw [if_pos hfP] at hP
    cases hP
  · rw [if_neg hfP] at hP
    rw [if_neg hfP] at hB
    rw [show getFileOffset (bomSkip (firstBlockState (bomBytes ++ file) bufferSize))
        = getFileOffset (firstBlockState file bufferSize) + 3 from by rw [habsB3, habsP0]] at hB
    cases hklP : keyedLoop co F F (getFileOffset (firstBlockState file bufferSize)) idP 0 s2P
        (Indexer.init file primary false pref chunkSize bufferSize trackFS).index with
    | outOfFuel =>
      rw [hklP] at hP
      cases hP
    | err e k =>
      rw [hklP] at hP
      cases hP
    | ok kP =>
    cases hklB : keyedLoop co F F (getFileOffset (firstBlockState file bufferSize) + 3) idP 0 s2B
        (Indexer.init (bomBytes ++ file) primary false pref chunkSize bufferSize trackFS).index
        with
    | outOfFuel =>
      rw [hklB] at hB
      cases hB
    | err e k =>
      rw [hklB] at hB
      cases hB
    | ok kB =>
      rw [hklP] at hP
      rw [hklB] at hB
      simp only [] at hP hB
      have hfile2 : s2B.file = bomBytes ++ s2P.file := by
        rw [uB2, tB2, hfileB1]
        rfl
      have habs2 : getFileOffset s2B = getFileOffset s2P + 3 := by
        rw [tD, uD, hrest1, habsB3, habsP0]
        omega
      have hpok2P : s2P.done = true ∨ s2P.pos < s2P.block.length := by
        by_cases h2 : s2P.done = true
        · exact Or.inl h2
        · refine Or.inr (tF ?_)
          cases h : s2P.done
          · rfl
          · exact absurd h h2
      have hpok2B : s2B.done = true ∨ s2B.pos < s2B.block.length := by
        by_cases h2 : s2B.done = true
        · exact Or.inl h2
        · refine Or.inr (uF ?_)
          cases h : s2B.done
          · rfl
          · exact absurd h h2
      have hseq2 : getFileOffset (firstBlockState file bufferSize) ≤ getFileOffset s2P := by
        rw [habsP0]
        exact Nat.zero_le _
      obtain ⟨hRel, hSeqEq, hPrevEq, hSampEq, hNe2, hOffP2, hOffB2⟩ :=
        keyedLoop_shift hnum tA uA hpok2P hpok2B hfile2 habs2
          (idxRel_init chunkSize primary trackFS) (by exact fun h => List.noConfusion h)
          (Nat.zero_le _) (Nat.zero_le _) hseq2 hklP hklB
      obtain ⟨mA, mB3, mC, mD, mE, mF2, mG⟩ := keyedLoop_total tA hpok2P hseq2 hklP
      obtain ⟨nA, nB3, nC, nD, nE, nF2, nG⟩ := keyedLoop_total uA hpok2B (by omega) hklB
      have hendP : kP.scan.fileOffsetEnd = file.length := by
        rw [mA.hend, (mA.hdone mD).2, mB3, tB2]
        rfl
      have hendB : kB.scan.fileOffsetEnd = file.length + 3 := by
        rw [nA.hend, (nA.hdone nD).2, nB3, uB2, hfileB1, hlenB]
      rw [hPrevEq, hSampEq, hSeqEq,
        show kB.scan.fileOffsetEnd = kP.scan.fileOffsetEnd + 3 from by omega] at hB
      cases haddP : kP.index.addSequence
          { key := kP.previousId, numberOfSamples := kP.numberOfSamples }
          kP.sequenceOffset kP.scan.fileOffsetEnd with
      | err e i =>
        rw [haddP] at hP
        cases hP
      | ok idxP2 =>
        obtain ⟨idxB2, hBadd, hrelF, -, -, -⟩ :=
          addSequence_shift hRel hNe2 hOffP2 hOffB2 haddP
        rw [haddP] at hP
        rw [hBadd] at hB
        cases hP
        cases hB
        exact ⟨hrelF, idxRel_absSpans hrelF⟩

/-- C8 witness: the amended theorem applied to `"0|aaaa\n1|bbbb\n"` with
a 5-byte chunk budget, with and without a leading BOM. -/
theorem C8_amended_witness :
    IdxRel c8StateP.index c8StateB.index ∧
      c8StateB.index.absSpans
        = c8StateP.index.absSpans.map (fun q => (q.1, q.2.1, q.2.2.1 + 3, q.2.2.2 + 3)) :=
  C8_amended_bom_shift (by decide) (by decide) (by decide) (by decide) (by decide)
    (by decide : Indexer.build (Indexer.init c8FileP true false 124 5 1024 false) numCorpus 20
      = .ok c8StateP)
    (by decide : Indexer.build
        (Indexer.init (bomBytes ++ c8FileP) true false 124 5 1024 false) numCorpus 20
      = .ok c8StateB)

end CNTKIndexer
